import Mathlib

/-!
Verification of the `graph` library (abstract graph capability plus A* shortest
path, Prim's minimum spanning tree and breadth-first traversal) against its
specification.

The Rust sources are shallowly embedded:

* machine integers (`usize` weights) become `Nat`;
* `HashMap`/`HashSet` become insertion-ordered association lists resp. lists
  (the spec leaves hash iteration order unspecified; insertion order is one
  deterministic refinement of it);
* `std::collections::BinaryHeap` of min-ordered containers becomes a list with
  a `selectMinBy` pop that returns the earliest element of minimal key (the
  spec declares the tie-break order of the heap unspecified, `selectMinBy` is
  one deterministic refinement of it);
* Rust panics and potential non-termination are modelled with `Option` /
  explicit fuel: a `none` result means the Rust code would panic or diverge
  rather than return.
-/

namespace GraphLib

/-- The graph interface that `shortest_path.rs` is written against
(`src/shortest_path.rs` bounds: `G::Node`, `G::Weight`, `G::Neighbours`,
with `graph.neighbours : &Node → iterator of Node` and
`graph.weight : &Node → &Node → Option Weight`).  Weights are `usize` in every
concrete instance, embedded as `Nat`. -/
structure SPGraph (N : Type) where
  neighbours : N → List N
  weight : N → N → Option Nat

/-- Working state of A* (`struct PathNode` in `src/shortest_path.rs`):
a node, an optional parent node, a heuristic cost and an accumulated cost. -/
structure PathNode (N : Type) where
  node : N
  parent : Option N
  h_cost : Nat
  g_cost : Nat
  deriving Repr, DecidableEq

/-- `PathNode::f_cost`: total cost `h_cost + g_cost`. -/
def PathNode.f_cost (p : PathNode N) : Nat :=
  p.h_cost + p.g_cost

/-- Pop of a Rust `BinaryHeap` holding min-ordered elements: remove an element
whose key `f` is minimal, returning it together with the remaining elements.
Ties are resolved towards the earliest element, one deterministic refinement of
the heap's unspecified tie order (spec §9). -/
def selectMinBy (f : α → Nat) : List α → Option (α × List α)
  | [] => none
  | x :: xs =>
    match selectMinBy f xs with
    | none => some (x, [])
    | some (m, r) => if f x ≤ f m then some (x, xs) else some (m, x :: r)

/-- Lookup in a `HashMap` embedded as an insertion-ordered association list. -/
def lookupD [DecidableEq N] (l : List (N × β)) (k : N) : Option β :=
  match l with
  | [] => none
  | (k', v) :: t => if k' = k then some v else lookupD t k

/-- Insert in a `HashMap` embedded as an insertion-ordered association list:
an existing key is overwritten in place, a new key is appended. -/
def insertD [DecidableEq N] (l : List (N × β)) (k : N) (v : β) : List (N × β) :=
  match l with
  | [] => [(k, v)]
  | (k', v') :: t => if k' = k then (k, v) :: t else (k', v') :: insertD t k v

/-- Body of the neighbour-expansion `for` loop of `a_star`, applied to the
neighbours of `active` that are not yet in the distance map.  A `None` edge
weight executes `break`: it ends the whole loop, dropping the remaining
neighbours (`src/shortest_path.rs` lines 52-63). -/
def expandGo [DecidableEq N] (g : SPGraph N) (heuristic : N → N → Nat)
    (goal : N) (active : PathNode N) : List N → List (PathNode N)
  | [] => []
  | n :: ns =>
    match g.weight active.node n with
    | none => []
    | some c =>
      { node := n, parent := some active.node,
        h_cost := heuristic n goal, g_cost := active.g_cost + c }
        :: expandGo g heuristic goal active ns

/-- The neighbour-expansion step of `a_star`: iterate over
`graph.neighbours(active).filter(|n| !dist_map.contains_key(n))`, pushing a new
`PathNode` per edge and `break`ing at the first `None` weight. -/
def expand [DecidableEq N] (g : SPGraph N) (heuristic : N → N → Nat)
    (goal : N) (dist : List (N × PathNode N)) (active : PathNode N) :
    List (PathNode N) :=
  expandGo g heuristic goal active
    ((g.neighbours active.node).filter fun n => (lookupD dist n).isNone)

/-- Path reconstruction of `a_star`: walk the `parent` links back through
`dist_map`, collecting nodes from `end` towards `start`.  The Rust loop appends
to a vector; consing onto the recursive result builds the same end-first list.
`none` models a panic (`dist_map[v]` with a missing key) or divergence (a
cycle of parent links); the fuel passed by the caller is large enough that a
cycle-free chain is never cut off. -/
def reconstruct [DecidableEq N] (dist : List (N × PathNode N)) :
    Nat → PathNode N → Option (List N)
  | 0, _ => none
  | fuel + 1, active =>
    match active.parent with
    | none => some [active.node]
    | some v =>
      match lookupD dist v with
      | none => none
      | some pv => (reconstruct dist fuel pv).map (fun rest => active.node :: rest)

/-- Outcome of an `a_star` run: `found p` is `Some(p)`, `noPath` is the `None`
returned when the frontier empties, and `fail` stands for the runs that do not
return a value in Rust (fuel exhausted in the embedding, or a panic /
divergence during path reconstruction). -/
inductive AStarResult (N : Type) where
  | found : List N → AStarResult N
  | noPath : AStarResult N
  | fail : AStarResult N
  deriving Repr, DecidableEq

/-- The `while let Some(active_val) = frontier.pop()` loop of `a_star`
(`src/shortest_path.rs` lines 27-65), with explicit fuel:

* pop the minimum-`f_cost` entry; an empty frontier returns `None` (no path);
* a popped entry for `end` is returned after walking parent links backwards;
* otherwise the entry is recorded in `dist_map` if the node is new or the new
  `f_cost` is strictly smaller than the recorded one (expanding either way),
  and discarded otherwise;
* expansion pushes one new entry per surviving outgoing edge. -/
def aStarLoop [DecidableEq N] (g : SPGraph N) (heuristic : N → N → Nat)
    (goal : N) : Nat → List (PathNode N) → List (N × PathNode N) → AStarResult N
  | 0, _, _ => .fail
  | fuel + 1, frontier, dist =>
    match selectMinBy PathNode.f_cost frontier with
    | none => .noPath
    | some (active, rest) =>
      if active.node = goal then
        match reconstruct dist (dist.length + 1) active with
        | some p => .found p
        | none => .fail
      else
        match lookupD dist active.node with
        | some e =>
          if active.f_cost < e.f_cost then
            let dist' := insertD dist active.node active
            aStarLoop g heuristic goal fuel
              (rest ++ expand g heuristic goal dist' active) dist'
          else
            aStarLoop g heuristic goal fuel rest dist
        | none =>
          let dist' := insertD dist active.node active
          aStarLoop g heuristic goal fuel
            (rest ++ expand g heuristic goal dist' active) dist'

/-- `a_star(graph, start, end, heuristic)` of `src/shortest_path.rs`: seed the
frontier with `PathNode::new(start, None)` (zero costs, no parent) and run the
loop.  The extra fuel argument bounds the number of loop iterations; every
claim about termination quantifies over it. -/
def a_star [DecidableEq N] (g : SPGraph N) (start goal : N)
    (heuristic : N → N → Nat) (fuel : Nat) : AStarResult N :=
  aStarLoop g heuristic goal fuel
    [{ node := start, parent := none, h_cost := 0, g_cost := 0 }] []

/-- The graph capability contract as required by its in-tree consumers
`prims` (`src/minimum_spanning_tree.rs`) and `breadth_first_search`
(`src/traversal.rs`), and as documented in spec §4.1: `target` resolves an
edge to its target node and is `none` exactly for a dangling edge.  Note that
the trait declaration committed in `src/lib.rs` types `target` as returning a
bare `NodeId`; both consumers and the spec require the `Option` form embedded
here (see the C5 analysis). -/
structure MGraph (N E : Type) where
  outgoing_edges : N → List E
  target : E → Option N
  weight : E → Nat

/-- One iteration step of Prim's candidate-edge push: map each outgoing edge
of the newly connected node to an `EdgeContainer { cost, edge }` pair and keep
those whose target resolves to a not-yet-connected node (dangling targets are
dropped: `None => false`). -/
def primsPushes [DecidableEq N] (g : MGraph N E) (conn : List N) (n : N) :
    List (Nat × E) :=
  ((g.outgoing_edges n).map fun e => (g.weight e, e)).filter fun ce =>
    match g.target ce.2 with
    | some m => decide (m ∉ conn)
    | none => false

/-- The `while let Some(edge) = active_edges.pop()` loop of `prims`
(`src/minimum_spanning_tree.rs` lines 24-45), with explicit fuel:

* pop the minimum-cost candidate edge;
* a dangling target (`target` returns `none`) skips the edge;
* an already connected target discards the stale candidate;
* otherwise connect the target, append the edge to the result, and push the
  target's outgoing candidates whose own target is not connected yet. -/
def primsLoop [DecidableEq N] (g : MGraph N E) :
    Nat → List (Nat × E) → List N → List E → Option (List E)
  | 0, _, _, _ => none
  | fuel + 1, frontier, conn, edges =>
    match selectMinBy Prod.fst frontier with
    | none => some edges
    | some (ce, rest) =>
      match g.target ce.2 with
      | none => primsLoop g fuel rest conn edges
      | some n =>
        if n ∈ conn then primsLoop g fuel rest conn edges
        else
          primsLoop g fuel (rest ++ primsPushes g (n :: conn) n) (n :: conn)
            (edges ++ [ce.2])

/-- `prims(graph, start)` of `src/minimum_spanning_tree.rs`: connected set
seeded with `start`, frontier seeded with all of `start`'s outgoing edges
(unfiltered), then the loop.  A `none` result means the fuel ran out; every
claim about termination quantifies over the fuel. -/
def prims [DecidableEq N] (g : MGraph N E) (start : N) (fuel : Nat) :
    Option (List E) :=
  primsLoop g fuel ((g.outgoing_edges start).map fun e => (g.weight e, e))
    [start] []

/-- One visit-order record of `breadth_first_search` (`struct BfsNode` in
`src/traversal.rs`): a node value and the index of its parent in the visit
order. -/
structure BfsNode (N : Type) where
  value : N
  parent : Nat
  deriving Repr, DecidableEq

/-- The BFS neighbour-expansion loop: iterate the outgoing edges, resolve each
target (`filter_map` drops dangling edges), and for every target newly added
to the visited set queue a `BfsNode` with the current visit index as parent.
Returns the grown visited set and the queued records in order. -/
def bfsExpand [DecidableEq N] (g : MGraph N E) (nid : Nat) :
    List N → List E → List N × List (BfsNode N)
  | visited, [] => (visited, [])
  | visited, e :: es =>
    match g.target e with
    | none => bfsExpand g nid visited es
    | some t =>
      if t ∈ visited then bfsExpand g nid visited es
      else
        let (v', ps) := bfsExpand g nid (t :: visited) es
        (v', { value := t, parent := nid } :: ps)

/-- The `while let Some(node) = frontier.pop_front()` loop of
`breadth_first_search` (`src/traversal.rs` lines 35-44), with explicit fuel.
The Rust function returns `()`; its observable behaviour is the visit-order
sequence handed to the `apply` callback, so the embedding returns the final
visit order (also when `apply` stops the traversal early).  `none` means the
fuel ran out. -/
def bfsLoop [DecidableEq N] (g : MGraph N E)
    (apply : List (BfsNode N) → Bool) :
    Nat → List (BfsNode N) → List N → List (BfsNode N) →
    Option (List (BfsNode N))
  | 0, _, _, _ => none
  | fuel + 1, frontier, visited, order =>
    match frontier with
    | [] => some order
    | node :: rest =>
      let order' := order ++ [node]
      if apply order' then
        let (visited', pushes) :=
          bfsExpand g order.length visited (g.outgoing_edges node.value)
        bfsLoop g apply fuel (rest ++ pushes) visited' order'
      else some order'

/-- `breadth_first_search(graph, start, apply)` of `src/traversal.rs`: the
frontier is seeded with `BfsNode { value: start, parent: 0 }` and — this is
the point of claim C6 — the visited set starts empty, without `start`. -/
def breadth_first_search [DecidableEq N] (g : MGraph N E) (start : N)
    (apply : List (BfsNode N) → Bool) (fuel : Nat) :
    Option (List (BfsNode N)) :=
  bfsLoop g apply fuel [{ value := start, parent := 0 }] [] []

/-- A node record of the reference storage (`struct AdjacencyMapNode` in
`src/adjacency_map.rs`): a payload value and the outgoing-arc map
`HashMap<NodeId, W>`, embedded as an insertion-ordered association list with
`NodeId = usize ↦ Nat` and `W = usize ↦ Nat`. -/
structure AdjacencyMapNode (V : Type) where
  value : V
  outgoing : List (Nat × Nat)

/-- The reference storage (`struct AdjacencyMap` in `src/adjacency_map.rs`):
a dense list of node records plus a map from external `NodeId` to the internal
slot index. -/
structure AdjacencyMap (V : Type) where
  nodes : List (AdjacencyMapNode V)
  map : List (Nat × Nat)

/-- `AdjacencyMap::new()`: empty storage. -/
def AdjacencyMap.new : AdjacencyMap V :=
  { nodes := [], map := [] }

/-- `AdjacencyMap::add_node(id, value)`: push a fresh record with an empty
outgoing map and point `map[id]` at its slot (re-adding an id shadows the old
mapping entry, exactly as the `HashMap::insert` does). -/
def AdjacencyMap.add_node (m : AdjacencyMap V) (node_id : Nat) (value : V) :
    AdjacencyMap V :=
  { nodes := m.nodes ++ [{ value := value, outgoing := [] }],
    map := insertD m.map node_id m.nodes.length }

/-- `AdjacencyMap::add_arc(from, to, weight)`:
`self.nodes[self.map[from]].outgoing.insert(to, weight)`.  The `self.map[from]`
index panics when `from` is unknown (and `self.nodes[i]` when the slot is
stale); panics are modelled by a `none` result. -/
def AdjacencyMap.add_arc (m : AdjacencyMap V) (from_ to_ weight : Nat) :
    Option (AdjacencyMap V) :=
  match lookupD m.map from_ with
  | none => none
  | some li =>
    match m.nodes[li]? with
    | none => none
    | some nd =>
      some { m with
        nodes := m.nodes.set li { nd with outgoing := insertD nd.outgoing to_ weight } }

/-- `AdjacencyMap::add_edge(a, b, weight)`: two arcs with the same weight. -/
def AdjacencyMap.add_edge (m : AdjacencyMap V) (a b weight : Nat) :
    Option (AdjacencyMap V) :=
  (m.add_arc a b weight).bind fun m' => m'.add_arc b a weight

/-- The `Graph` implementation of `&AdjacencyMap` used by `a_star`
(`src/adjacency_map.rs` lines 60-80): `weight(from, to)` resolves `from` in
the slot map and `to` in its outgoing map, returning `None` if either is
missing; `neighbours(node)` iterates the keys of the outgoing map (the
`self.nodes[self.map[*node]]` indexing panics on an unknown node in Rust; the
embedding returns the empty iterator, which no verified run relies on). -/
def AdjacencyMap.toSPGraph (m : AdjacencyMap V) : SPGraph Nat :=
  { neighbours := fun n =>
      match lookupD m.map n with
      | none => []
      | some li =>
        match m.nodes[li]? with
        | none => []
        | some nd => nd.outgoing.map Prod.fst,
    weight := fun from_ to_ =>
      match lookupD m.map from_ with
      | none => none
      | some li =>
        match m.nodes[li]? with
        | none => none
        | some nd => lookupD nd.outgoing to_ }

/-- A path in an `SPGraph` from `s` to a node, together with its accumulated
edge-weight sum: an edge goes from `u` to `v` when `v` is listed among the
neighbours of `u` and `weight u v` is present. -/
inductive PathTo (g : SPGraph N) (s : N) : N → Nat → Prop
  | refl : PathTo g s s 0
  | step {u v c d} : PathTo g s u d → v ∈ g.neighbours u →
      g.weight u v = some c → PathTo g s v (d + c)

/-- Accumulated edge-weight sum of a node sequence returned by `a_star`
(ordered from `end` back to `start`): the weight of the edge from each list
element's successor to the element itself, summed; `none` when some required
edge is missing. -/
def listCost (g : SPGraph N) : List N → Option Nat
  | [] => some 0
  | [_] => some 0
  | n :: m :: rest =>
    match g.weight m n, listCost g (m :: rest) with
    | some c, some d => some (c + d)
    | _, _ => none

/-- Reachability along resolving edges in an `MGraph`. -/
inductive ReachE (g : MGraph N E) (s : N) : N → Prop
  | refl : ReachE g s s
  | step {u v e} : ReachE g s u → e ∈ g.outgoing_edges u →
      g.target e = some v → ReachE g s v

/-- Checks that an edge sequence grows a tree: starting from the node set
`sofar`, each edge in turn must leave some already covered node and resolve to
a node not covered yet, which is then added.  Returns the final covered set
(latest node first); `some` exactly for sequences forming a tree. -/
def grow [DecidableEq N] [DecidableEq E] (g : MGraph N E) :
    List N → List E → Option (List N)
  | sofar, [] => some sofar
  | sofar, e :: es =>
    match g.target e with
    | none => none
    | some n =>
      if n ∈ sofar then none
      else if sofar.any (fun u => e ∈ g.outgoing_edges u) then
        grow g (n :: sofar) es
      else none

/-- The shared fixture of `test_using_shortest_path`
(`src/adjacency_map.rs` lines 88-114): nodes 1-6 and the nine undirected
weighted edges, built through `add_node`/`add_edge` exactly as the test does
(`add_edge` is fallible in the embedding because `add_arc` models the panic on
an unknown source; every step here succeeds). -/
def fixture : Option (AdjacencyMap Unit) :=
  let g1 := ((((((AdjacencyMap.new.add_node 1 ()).add_node 2 ()).add_node 3
      ()).add_node 4 ()).add_node 5 ()).add_node 6 ())
  (((((((((g1.add_edge 1 2 7).bind fun g => g.add_edge 1 3 9).bind
    fun g => g.add_edge 1 6 14).bind fun g => g.add_edge 2 3 10).bind
    fun g => g.add_edge 2 4 15).bind fun g => g.add_edge 3 4 11).bind
    fun g => g.add_edge 3 6 2).bind fun g => g.add_edge 4 5 6).bind
    fun g => g.add_edge 5 6 14)

/-- Four-node graph `0 →1→ 1`, `0 →5→ 2`, `1 →1→ 2`, `2 →10→ 3` on which the
cheapest route from 0 to 3 is `0,1,2,3` with cost 12, while the direct route
through 2 costs 15. -/
def gCex : SPGraph Nat :=
  { neighbours := fun n => match n with | 0 => [1, 2] | 1 => [2] | 2 => [3] | _ => []
  , weight := fun u v =>
      match u, v with
      | 0, 1 => some 1 | 0, 2 => some 5 | 1, 2 => some 1 | 2, 3 => some 10
      | _, _ => none }

/-- Heuristic towards node 3 for `gCex`: 10 at node 1, 0 elsewhere.  It never
overestimates the true remaining cost (the only route from 1 to 3 costs 11)
but is not consistent across the edge `1 → 2` (10 > 1 + 0). -/
def hCex : Nat → Nat → Nat := fun v _ => if v = 1 then 10 else 0

/-- Two-edge graph in which node 1 lists neighbours `[2, 3]`: the edge to 2 is
dangling (`weight 1 2 = none`) and the edge to 3 exists with weight 1. -/
def gBreak : SPGraph Nat :=
  { neighbours := fun n => match n with | 1 => [2, 3] | _ => []
  , weight := fun u v => match u, v with | 1, 3 => some 1 | _, _ => none }

/-- `MGraph` whose node 1 has two outgoing edges (edges are their own ids):
edge 1 is dangling (`target` absent), edge 2 resolves to node 2. -/
def gDang : MGraph Nat Nat :=
  { outgoing_edges := fun n => match n with | 1 => [1, 2] | _ => []
  , target := fun e => match e with | 2 => some 2 | _ => none
  , weight := fun e => e }

/-- Two-node cycle `1 → 2 → 1` (edges are `(source, target)` pairs). -/
def gCyc : MGraph Nat (Nat × Nat) :=
  { outgoing_edges := fun n => match n with | 1 => [(1, 2)] | 2 => [(2, 1)] | _ => []
  , target := fun e => some e.2
  , weight := fun _ => 0 }

/-- Weights of the `minimum_spanning_tree.rs` test graph, symmetric on the
four undirected edges (1,2,2) (1,4,1) (2,4,2) (3,4,3). -/
def mstW : Nat × Nat → Nat := fun e =>
  match e with
  | (1, 2) => 2 | (2, 1) => 2 | (1, 4) => 1 | (4, 1) => 1
  | (2, 4) => 2 | (4, 2) => 2 | (3, 4) => 3 | (4, 3) => 3 | _ => 0

/-- The `minimum_spanning_tree.rs` test graph as an `MGraph` (edges are
`(source, target)` pairs, each undirected edge present as two arcs). -/
def gMst : MGraph Nat (Nat × Nat) :=
  { outgoing_edges := fun n =>
      match n with
      | 1 => [(1, 2), (1, 4)] | 2 => [(2, 1), (2, 4)] | 3 => [(3, 4)]
      | 4 => [(4, 1), (4, 2), (4, 3)] | _ => []
  , target := fun e => if e.2 ∈ ([1, 2, 3, 4] : List Nat) then some e.2 else none
  , weight := mstW }

/-- An edge of an `SPGraph` from `m` to `n`: `n` is listed among the
neighbours of `m` and the weight of the pair is present. -/
def EdgeFromTo (g : SPGraph N) (m n : N) : Prop :=
  n ∈ g.neighbours m ∧ (g.weight m n).isSome

/-- Structural soundness of a single A* bookkeeping record relative to a
distance map: a record without parent is the seed for `start`; a record with
parent `p` was pushed while expanding `p`, so `p` is in the distance map and
the edge from `p` to the record's node exists. -/
def EntryInv (g : SPGraph N) [DecidableEq N] (start : N)
    (dist : List (N × PathNode N)) (e : PathNode N) : Prop :=
  (e.parent = none → e.node = start) ∧
  (∀ p, e.parent = some p → (lookupD dist p).isSome ∧
    e.node ∈ g.neighbours p ∧ (g.weight p e.node).isSome)

/-- Structural soundness of the whole distance map: every stored record
belongs to its key and satisfies `EntryInv` against the map itself. -/
def ChainInv (g : SPGraph N) [DecidableEq N] (start : N)
    (dist : List (N × PathNode N)) : Prop :=
  ∀ v dv, lookupD dist v = some dv → dv.node = v ∧ EntryInv g start dist dv

/-- Loop invariant of the `a_star` main loop in the consistent-heuristic
setting, tying the frontier and the distance map to the graph:

* `reach`/`fchain`: every frontier record carries the cost of a real path and,
  unless it is the seed, was pushed while expanding its parent, which sits in
  the distance map;
* `fseed`/`fheur`, `dseed`/`dheur`: the seed is the unique record without a
  parent and carries zero costs; every other record caches the heuristic of
  its node;
* `dnode`/`dopt`: the distance map stores, per key, a record for that node
  whose accumulated cost is the minimum over all paths from `start`;
* `dchain`/`dnodup`/`dfirst`/`dstart`: parent links inside the distance map
  point to strictly earlier entries, keys are unique, and the first entry (if
  any) is the parent-less one for `start`;
* `dempty`: before the first pop the frontier is exactly the seed;
* `noend`: the goal never enters the distance map (the loop returns first);
* `relax`: every outgoing edge of a closed node has been relaxed — its target
  is closed too, or some frontier record reaches it within the closed cost
  plus the edge weight. -/
structure AStarInv [DecidableEq N] (g : SPGraph N) (heuristic : N → N → Nat)
    (start goal : N) (frontier : List (PathNode N))
    (dist : List (N × PathNode N)) : Prop where
  reach : ∀ e ∈ frontier, PathTo g start e.node e.g_cost
  fseed : ∀ e ∈ frontier, e.parent = none →
    e.node = start ∧ e.g_cost = 0 ∧ e.h_cost = 0
  fheur : ∀ e ∈ frontier, e.parent ≠ none → e.h_cost = heuristic e.node goal
  fchain : ∀ e ∈ frontier, ∀ p, e.parent = some p → ∃ dp c,
    lookupD dist p = some dp ∧ e.node ∈ g.neighbours p ∧
    g.weight p e.node = some c ∧ e.g_cost = dp.g_cost + c
  dnode : ∀ v dv, lookupD dist v = some dv → dv.node = v
  dopt : ∀ v dv, lookupD dist v = some dv → PathTo g start v dv.g_cost ∧
    ∀ d, PathTo g start v d → dv.g_cost ≤ d
  dseed : ∀ v dv, lookupD dist v = some dv → dv.parent = none →
    v = start ∧ dv.g_cost = 0 ∧ dv.h_cost = 0
  dheur : ∀ v dv, lookupD dist v = some dv → dv.parent ≠ none →
    dv.h_cost = heuristic v goal
  dchain : ∀ (i : Nat) (kv : N × PathNode N), dist[i]? = some kv →
    ∀ p, kv.2.parent = some p →
    ∃ (j : Nat) (dp : PathNode N) (c : Nat), j < i ∧ dist[j]? = some (p, dp) ∧
      kv.1 ∈ g.neighbours p ∧ g.weight p kv.1 = some c ∧
      kv.2.g_cost = dp.g_cost + c
  dnodup : (dist.map Prod.fst).Nodup
  dfirst : ∀ (kv : N × PathNode N), dist[0]? = some kv → kv.1 = start
  dstart : ∀ dv, lookupD dist start = some dv → dv.parent = none
  dempty : dist = [] →
    frontier = [{ node := start, parent := none, h_cost := 0, g_cost := 0 }]
  noend : lookupD dist goal = none
  relax : ∀ v dv, lookupD dist v = some dv → ∀ n ∈ g.neighbours v,
    (lookupD dist n).isSome ∨ ∃ e ∈ frontier, e.node = n ∧ ∃ c,
      g.weight v n = some c ∧ e.g_cost ≤ dv.g_cost + c

/-- Termination potential of the `a_star` loop: the frontier size plus, for
every node of the (finite) universe not yet closed, its degree plus one.
Each loop iteration strictly decreases it. -/
def aStarPhi [DecidableEq N] (g : SPGraph N) (univ : List N)
    (frontier : List (PathNode N)) (dist : List (N × PathNode N)) : Nat :=
  frontier.length +
    ((univ.filter fun n => (lookupD dist n).isNone).map
      fun n => (g.neighbours n).length + 1).sum

/-- Loop invariant of the `prims` main loop:

* `connStart`/`connReach`/`connNodup`: the connected set contains `start`,
  only reachable nodes, each once;
* `frontSrc`: every frontier container pairs an edge with its weight and the
  edge leaves some connected node;
* `relax`: every outgoing edge of a connected node with a resolving target is
  accounted for — target connected, or the edge still queued;
* `growInv`: the edges collected so far grow a tree from `start` whose node
  set is exactly the connected set. -/
structure PrimsInv [DecidableEq N] [DecidableEq E] (g : MGraph N E) (start : N)
    (frontier : List (Nat × E)) (conn : List N) (edges : List E) : Prop where
  connStart : start ∈ conn
  connReach : ∀ v ∈ conn, ReachE g start v
  connNodup : conn.Nodup
  frontSrc : ∀ ce ∈ frontier, ce.1 = g.weight ce.2 ∧
    ∃ u ∈ conn, ce.2 ∈ g.outgoing_edges u
  relax : ∀ u ∈ conn, ∀ e ∈ g.outgoing_edges u, ∀ n, g.target e = some n →
    n ∈ conn ∨ (g.weight e, e) ∈ frontier
  growInv : grow g [start] edges = some conn

/-- Termination potential of the `prims` loop: frontier size plus, for every
node of the universe not yet connected, its out-degree plus one. -/
def primsPhi [DecidableEq N] (g : MGraph N E) (univ : List N)
    (frontier : List (Nat × E)) (conn : List N) : Nat :=
  frontier.length +
    ((univ.filter fun n => decide (n ∉ conn)).map
      fun n => (g.outgoing_edges n).length + 1).sum

section HelperLemmas

variable {α : Type*} {N : Type*} [DecidableEq N]

theorem selectMinBy_eq_none {f : α → Nat} {l : List α} :
    selectMinBy f l = none ↔ l = [] := by
  cases l with
  | nil => simp [selectMinBy]
  | cons x xs =>
    simp only [selectMinBy]
    cases h : selectMinBy f xs with
    | none => simp
    | some p =>
      obtain ⟨m, r⟩ := p
      by_cases hx : f x ≤ f m <;> simp [hx]

theorem selectMinBy_perm {f : α → Nat} {l : List α} {m : α} {r : List α}
    (h : selectMinBy f l = some (m, r)) : (m :: r).Perm l := by
  induction l generalizing m r with
  | nil => simp [selectMinBy] at h
  | cons x xs ih =>
    simp only [selectMinBy] at h
    cases h' : selectMinBy f xs with
    | none =>
      rw [h'] at h
      obtain rfl : xs = [] := selectMinBy_eq_none.mp h'
      simp only [Option.some.injEq, Prod.mk.injEq] at h
      obtain ⟨rfl, rfl⟩ := h
      exact List.Perm.refl _
    | some p =>
      obtain ⟨m', r'⟩ := p
      rw [h'] at h
      by_cases hx : f x ≤ f m'
      · simp only [hx, if_true, Option.some.injEq, Prod.mk.injEq] at h
        obtain ⟨rfl, rfl⟩ := h
        exact List.Perm.refl _
      · simp only [hx, if_false, Option.some.injEq, Prod.mk.injEq] at h
        obtain ⟨rfl, rfl⟩ := h
        exact (List.Perm.swap _ _ _).trans ((ih h').cons x)

theorem selectMinBy_min {f : α → Nat} {l : List α} {m : α} {r : List α}
    (h : selectMinBy f l = some (m, r)) : ∀ x ∈ l, f m ≤ f x := by
  induction l generalizing m r with
  | nil => simp [selectMinBy] at h
  | cons x xs ih =>
    simp only [selectMinBy] at h
    cases h' : selectMinBy f xs with
    | none =>
      rw [h'] at h
      obtain rfl : xs = [] := selectMinBy_eq_none.mp h'
      simp only [Option.some.injEq, Prod.mk.injEq] at h
      obtain ⟨rfl, rfl⟩ := h
      intro y hy
      simp only [List.mem_singleton] at hy
      subst hy
      exact le_refl _
    | some p =>
      obtain ⟨m', r'⟩ := p
      rw [h'] at h
      by_cases hx : f x ≤ f m'
      · simp only [hx, if_true, Option.some.injEq, Prod.mk.injEq] at h
        obtain ⟨rfl, rfl⟩ := h
        intro y hy
        rcases List.mem_cons.mp hy with rfl | hy
        · exact le_refl _
        · exact le_trans hx (ih h' y hy)
      · simp only [hx, if_false, Option.some.injEq, Prod.mk.injEq] at h
        obtain ⟨rfl, rfl⟩ := h
        intro y hy
        rcases List.mem_cons.mp hy with rfl | hy
        · exact le_of_lt (lt_of_not_le hx)
        · exact ih h' y hy

theorem selectMinBy_mem {f : α → Nat} {l : List α} {m : α} {r : List α}
    (h : selectMinBy f l = some (m, r)) : m ∈ l :=
  (selectMinBy_perm h).mem_iff.mp (List.mem_cons_self m r)

theorem selectMinBy_rest_subset {f : α → Nat} {l : List α} {m : α} {r : List α}
    (h : selectMinBy f l = some (m, r)) : ∀ x ∈ r, x ∈ l :=
  fun x hx => (selectMinBy_perm h).mem_iff.mp (List.mem_cons_of_mem m hx)

theorem lookupD_insertD_self {l : List (N × β)} {k : N} {v : β} :
    lookupD (insertD l k v) k = some v := by
  induction l with
  | nil => simp [insertD, lookupD]
  | cons kv t ih =>
    obtain ⟨k', v'⟩ := kv
    by_cases h : k' = k <;> simp [insertD, lookupD, h, ih]

theorem lookupD_insertD_ne {l : List (N × β)} {k k' : N} {v : β}
    (h : k' ≠ k) : lookupD (insertD l k v) k' = lookupD l k' := by
  have h' : k ≠ k' := Ne.symm h
  induction l with
  | nil => simp [insertD, lookupD, h']
  | cons kv t ih =>
    obtain ⟨k₀, v₀⟩ := kv
    by_cases h₀ : k₀ = k
    · subst h₀
      simp [insertD, lookupD, h']
    · simp [insertD, lookupD, h₀, ih]

theorem lookupD_eq_none_iff {l : List (N × β)} {k : N} :
    lookupD l k = none ↔ k ∉ l.map Prod.fst := by
  induction l with
  | nil => simp [lookupD]
  | cons kv t ih =>
    obtain ⟨k', v⟩ := kv
    by_cases h : k' = k
    · subst h
      simp [lookupD]
    · simp [lookupD, h, ih, Ne.symm h]

theorem lookupD_isSome_of_mem {l : List (N × β)} {k : N} {v : β}
    (h : (k, v) ∈ l) : (lookupD l k).isSome := by
  induction l with
  | nil => simp at h
  | cons kv t ih =>
    obtain ⟨k', v'⟩ := kv
    by_cases hk : k' = k
    · simp [lookupD, hk]
    · rcases List.mem_cons.mp h with h' | h'
      · cases h'
        exact absurd rfl hk
      · simpa [lookupD, hk] using ih h'

theorem mem_of_lookupD_eq_some {l : List (N × β)} {k : N} {v : β}
    (h : lookupD l k = some v) : (k, v) ∈ l := by
  induction l with
  | nil => simp [lookupD] at h
  | cons kv t ih =>
    obtain ⟨k', v'⟩ := kv
    by_cases hk : k' = k
    · subst hk
      simp only [lookupD, if_true] at h
      cases h
      exact List.mem_cons_self _ _
    · simp only [lookupD, hk, if_false] at h
      exact List.mem_cons_of_mem _ (ih h)

end HelperLemmas

theorem lookupD_insertD_isSome_mono [DecidableEq N] {l : List (N × β)}
    {k k' : N} {v : β} (h : (lookupD l k).isSome) :
    (lookupD (insertD l k' v) k).isSome := by
  by_cases hk : k = k'
  · subst hk
    simp [lookupD_insertD_self]
  · rwa [lookupD_insertD_ne (Ne.symm (fun e => hk e.symm))]

theorem expandGo_mem [DecidableEq N] {g : SPGraph N}
    {heuristic : N → N → Nat} {goal : N} {active : PathNode N} {l : List N}
    {e : PathNode N} (h : e ∈ expandGo g heuristic goal active l) :
    e.parent = some active.node ∧ e.node ∈ l ∧
      (g.weight active.node e.node).isSome ∧ e.h_cost = heuristic e.node goal ∧
      ∃ c, g.weight active.node e.node = some c ∧ e.g_cost = active.g_cost + c := by
  induction l with
  | nil => simp [expandGo] at h
  | cons n ns ih =>
    simp only [expandGo] at h
    cases hw : g.weight active.node n with
    | none => rw [hw] at h; simp at h
    | some c =>
      rw [hw] at h
      rcases List.mem_cons.mp h with rfl | h'
      · exact ⟨rfl, List.mem_cons_self _ _, by simp [hw], rfl, c, hw, rfl⟩
      · obtain ⟨h1, h2, h3, h4, h5⟩ := ih h'
        exact ⟨h1, List.mem_cons_of_mem _ h2, h3, h4, h5⟩

theorem EntryInv_insertD_mono [DecidableEq N] {g : SPGraph N} {start : N}
    {dist : List (N × PathNode N)} {k : N} {v e : PathNode N}
    (h : EntryInv g start dist e) : EntryInv g start (insertD dist k v) e := by
  refine ⟨h.1, fun p hp => ?_⟩
  obtain ⟨h1, h2, h3⟩ := h.2 p hp
  exact ⟨lookupD_insertD_isSome_mono h1, h2, h3⟩

theorem ChainInv_insert [DecidableEq N] {g : SPGraph N} {start : N}
    {dist : List (N × PathNode N)} {e : PathNode N}
    (hd : ChainInv g start dist) (he : EntryInv g start dist e) :
    ChainInv g start (insertD dist e.node e) := by
  intro v dv hv
  by_cases hk : v = e.node
  · subst hk
    rw [lookupD_insertD_self] at hv
    cases hv
    exact ⟨rfl, EntryInv_insertD_mono he⟩
  · rw [lookupD_insertD_ne hk] at hv
    obtain ⟨h1, h2⟩ := hd v dv hv
    exact ⟨h1, EntryInv_insertD_mono h2⟩

theorem reconstruct_sound [DecidableEq N] {g : SPGraph N} {start : N}
    {dist : List (N × PathNode N)} (hd : ChainInv g start dist) :
    ∀ fuel (e : PathNode N) (p : List N), EntryInv g start dist e →
      reconstruct dist fuel e = some p →
      p.head? = some e.node ∧ p.getLast? = some start ∧
        List.Chain' (fun n m => EdgeFromTo g m n) p := by
  intro fuel
  induction fuel with
  | zero => intro e p _ h; simp [reconstruct] at h
  | succ fuel ih =>
    intro e p he h
    cases hpar : e.parent with
    | none =>
      simp only [reconstruct, hpar, Option.some.injEq] at h
      subst h
      exact ⟨rfl, by simp [he.1 hpar], List.chain'_singleton _⟩
    | some v =>
      cases hpv : lookupD dist v with
      | none => simp [reconstruct, hpar, hpv] at h
      | some pv =>
        cases hrec : reconstruct dist fuel pv with
        | none => simp [reconstruct, hpar, hpv, hrec] at h
        | some rest =>
          simp only [reconstruct, hpar, hpv, hrec, Option.map_some',
            Option.some.injEq] at h
          subst h
          obtain ⟨hnode, hinv⟩ := hd v pv hpv
          obtain ⟨rh, rl, rc⟩ := ih pv rest hinv hrec
          have hrestne : rest ≠ [] := by
            intro hnil
            rw [hnil] at rh
            simp at rh
          cases rest with
          | nil => exact absurd rfl hrestne
          | cons b t =>
            have hb : b = pv.node := by simpa using rh
            refine ⟨rfl, ?_, ?_⟩
            · rw [List.getLast?_cons_cons]
              exact rl
            · refine List.chain'_cons.mpr ⟨?_, rc⟩
              subst hb
              rw [hnode]
              obtain ⟨_, h2, h3⟩ := he.2 v hpar
              exact ⟨h2, h3⟩

theorem aStarLoop_found_sound [DecidableEq N] {g : SPGraph N}
    {heuristic : N → N → Nat} {goal start : N} :
    ∀ fuel (frontier : List (PathNode N)) (dist : List (N × PathNode N))
      (p : List N), ChainInv g start dist →
      (∀ e ∈ frontier, EntryInv g start dist e) →
      aStarLoop g heuristic goal fuel frontier dist = .found p →
      p.head? = some goal ∧ p.getLast? = some start ∧
        List.Chain' (fun n m => EdgeFromTo g m n) p := by
  intro fuel
  induction fuel with
  | zero => intro _ _ _ _ _ h; simp [aStarLoop] at h
  | succ fuel ih =>
    intro frontier dist p hd hf h
    simp only [aStarLoop] at h
    cases hsel : selectMinBy PathNode.f_cost frontier with
    | none => rw [hsel] at h; simp at h
    | some ar =>
      obtain ⟨active, rest⟩ := ar
      simp only [hsel] at h
      have hact : EntryInv g start dist active := hf active (selectMinBy_mem hsel)
      have hrest : ∀ e ∈ rest, EntryInv g start dist e :=
        fun e hge => hf e (selectMinBy_rest_subset hsel e hge)
      by_cases hgoal : active.node = goal
      · rw [if_pos hgoal] at h
        cases hrec : reconstruct dist (dist.length + 1) active with
        | none => simp [hrec] at h
        | some q =>
          simp only [hrec, AStarResult.found.injEq] at h
          subst h
          obtain ⟨h1, h2, h3⟩ := reconstruct_sound hd _ active _ hact hrec
          exact ⟨hgoal ▸ h1, h2, h3⟩
      · rw [if_neg hgoal] at h
        have hnext : ∀ (dist' : List (N × PathNode N)),
            dist' = insertD dist active.node active →
            aStarLoop g heuristic goal fuel
              (rest ++ expand g heuristic goal dist' active) dist' = .found p →
            p.head? = some goal ∧ p.getLast? = some start ∧
              List.Chain' (fun n m => EdgeFromTo g m n) p := by
          intro dist' hdist' hrun
          subst hdist'
          refine ih _ _ p (ChainInv_insert hd hact) ?_ hrun
          intro e hge
          rcases List.mem_append.mp hge with hge | hge
          · exact EntryInv_insertD_mono (hrest e hge)
          · obtain ⟨h1, h2, h3, _, _⟩ := expandGo_mem hge
            have hnone : e.parent = none → e.node = start := by
              intro hn
              rw [hn] at h1
              cases h1
            refine ⟨hnone, fun q hq => ?_⟩
            rw [h1] at hq
            cases hq
            refine ⟨by simp [lookupD_insertD_self], (List.mem_filter.mp h2).1, h3⟩
        cases hl : lookupD dist active.node with
        | some e =>
          simp only [hl] at h
          by_cases hcmp : active.f_cost < e.f_cost
          · rw [if_pos hcmp] at h
            exact hnext _ rfl h
          · rw [if_neg hcmp] at h
            exact ih _ _ p hd hrest h
        | none =>
          simp only [hl] at h
          exact hnext _ rfl h

/-- C2: whenever `a_star` returns a path, its first element is the `end`
node, its last element is the `start` node, and each consecutive pair
`(n, m)` of the sequence is backed by an edge from `m` to `n` in the graph. -/
theorem c2_returned_path_shape {N : Type} [DecidableEq N] (g : SPGraph N)
    (start goal : N) (heuristic : N → N → Nat) (fuel : Nat) (p : List N)
    (hrun : a_star g start goal heuristic fuel = .found p) :
    p.head? = some goal ∧ p.getLast? = some start ∧
      List.Chain' (fun n m => EdgeFromTo g m n) p := by
  refine aStarLoop_found_sound fuel _ [] p (fun v dv hv => by simp [lookupD] at hv)
    ?_ hrun
  intro e hge
  rcases List.mem_singleton.mp hge with rfl
  exact ⟨fun _ => rfl, fun q hq => by simp at hq⟩

/-- C2 witness: the shape facts instantiated on a concrete run (the graph
`gCex` from 0 to 3, returning `[3, 2, 0]`). -/
theorem c2_returned_path_shape_witness :
    ([3, 2, 0] : List Nat).head? = some 3 ∧
      ([3, 2, 0] : List Nat).getLast? = some 0 ∧
      List.Chain' (fun n m => EdgeFromTo gCex m n) [3, 2, 0] :=
  c2_returned_path_shape gCex 0 3 hCex 50 [3, 2, 0] (by rfl)

theorem pathTo_heuristic_telescope {N : Type} {g : SPGraph N}
    {heuristic : N → N → Nat} {goal : N}
    (hcons : ∀ u v c, v ∈ g.neighbours u → g.weight u v = some c →
      heuristic u goal ≤ c + heuristic v goal)
    {w v : N} {d : Nat} (h : PathTo g w v d) :
    heuristic w goal ≤ d + heuristic v goal := by
  induction h with
  | refl => simp
  | @step u v c d hp hm hw ih =>
    have := hcons u v c hm hw
    omega

theorem pathTo_firstCross {N : Type} {g : SPGraph N} {s : N}
    (P : N → Prop) [DecidablePred P] {v : N} {d : Nat}
    (h : PathTo g s v d) : ¬ P v →
    ¬ P s ∨ ∃ u w c d₁ d₂, P u ∧ ¬ P w ∧ PathTo g s u d₁ ∧
      w ∈ g.neighbours u ∧ g.weight u w = some c ∧ PathTo g w v d₂ ∧
      d = d₁ + c + d₂ := by
  induction h with
  | refl => intro hv; exact Or.inl hv
  | @step u v c d hp hm hw ih =>
    intro hv
    by_cases hu : P u
    · exact Or.inr ⟨u, v, c, d, 0, hu, hv, hp, hm, hw, PathTo.refl, by omega⟩
    · rcases ih hu with hs | ⟨u', w, c', d₁, d₂, h1, h2, h3, h4, h5, h6, h7⟩
      · exact Or.inl hs
      · exact Or.inr ⟨u', w, c', d₁, d₂ + c, h1, h2, h3, h4, h5,
          PathTo.step h6 hm hw, by omega⟩

theorem pathTo_mem_univ {N : Type} {g : SPGraph N} {univ : List N} {s : N}
    (hs : s ∈ univ) (hclosed : ∀ u ∈ univ, ∀ v ∈ g.neighbours u, v ∈ univ)
    {v : N} {d : Nat} (h : PathTo g s v d) : v ∈ univ := by
  induction h with
  | refl => exact hs
  | @step u v c d _ hm _ ih => exact hclosed u ih v hm

theorem lookupD_get? {N : Type} [DecidableEq N] {β : Type}
    {l : List (N × β)} {k : N} {v : β} (h : lookupD l k = some v) :
    ∃ j : Nat, l[j]? = some (k, v) := by
  induction l with
  | nil => simp [lookupD] at h
  | cons kv t ih =>
    obtain ⟨k', v'⟩ := kv
    by_cases hk : k' = k
    · subst hk
      simp only [lookupD, if_true] at h
      cases h
      exact ⟨0, by simp⟩
    · simp only [lookupD, hk, if_false] at h
      obtain ⟨j, hj⟩ := ih h
      exact ⟨j + 1, by simpa using hj⟩

theorem get?_lookupD {N : Type} [DecidableEq N] {β : Type}
    {l : List (N × β)} (hnd : (l.map Prod.fst).Nodup)
    {j : Nat} {k : N} {v : β} (h : l[j]? = some (k, v)) :
    lookupD l k = some v := by
  induction l generalizing j with
  | nil => simp at h
  | cons kv t ih =>
    obtain ⟨k', v'⟩ := kv
    rw [List.map_cons] at hnd
    have hnd' := List.nodup_cons.mp hnd
    cases j with
    | zero =>
      simp only [List.getElem?_cons_zero, Option.some.injEq] at h
      cases h
      simp [lookupD]
    | succ j =>
      simp only [List.getElem?_cons_succ] at h
      have hmem : (k, v) ∈ t := by
        have hj := List.getElem?_eq_some.mp h
        obtain ⟨hlt, hget⟩ := hj
        exact hget ▸ List.getElem_mem hlt
      have hk : k' ≠ k := by
        intro he
        subst he
        exact hnd'.1 (List.mem_map.mpr ⟨(k', v), hmem, rfl⟩)
      rw [lookupD, if_neg hk]
      exact ih hnd'.2 h

theorem insertD_of_lookup_none {N : Type} [DecidableEq N] {β : Type}
    {l : List (N × β)} {k : N} {v : β} (h : lookupD l k = none) :
    insertD l k v = l ++ [(k, v)] := by
  induction l with
  | nil => simp [insertD]
  | cons kv t ih =>
    obtain ⟨k', v'⟩ := kv
    by_cases hk : k' = k
    · simp [lookupD, hk] at h
    · simp only [lookupD, hk, if_false] at h
      simp [insertD, hk, ih h]

theorem reconstruct_mono {N : Type} [DecidableEq N]
    {dist : List (N × PathNode N)} :
    ∀ {f₁ f₂ : Nat} {e : PathNode N} {p : List N}, f₁ ≤ f₂ →
      reconstruct dist f₁ e = some p → reconstruct dist f₂ e = some p := by
  intro f₁
  induction f₁ with
  | zero => intro f₂ e p _ h; simp [reconstruct] at h
  | succ f₁ ih =>
    intro f₂ e p hle h
    obtain ⟨f₂', rfl⟩ : ∃ f₂', f₂ = f₂' + 1 :=
      ⟨f₂ - 1, by omega⟩
    cases hpar : e.parent with
    | none =>
      simp only [reconstruct, hpar, Option.some.injEq] at h ⊢
      exact h
    | some q =>
      cases hq : lookupD dist q with
      | none => simp [reconstruct, hpar, hq] at h
      | some pv =>
        simp only [reconstruct, hpar, hq] at h ⊢
        cases hrec : reconstruct dist f₁ pv with
        | none => simp [hrec] at h
        | some rest =>
          rw [ih (by omega) hrec]
          rwa [hrec] at h

theorem expandGo_length_le {N : Type} [DecidableEq N] {g : SPGraph N}
    {heuristic : N → N → Nat} {goal : N} {active : PathNode N} :
    ∀ l : List N, (expandGo g heuristic goal active l).length ≤ l.length := by
  intro l
  induction l with
  | nil => simp [expandGo]
  | cons n ns ih =>
    simp only [expandGo]
    cases g.weight active.node n with
    | none => simp
    | some c => simpa using ih

theorem expandGo_covers {N : Type} [DecidableEq N] {g : SPGraph N}
    {heuristic : N → N → Nat} {goal : N} {active : PathNode N} {l : List N}
    (hw : ∀ n ∈ l, (g.weight active.node n).isSome) :
    ∀ n ∈ l, ∃ c, g.weight active.node n = some c ∧
      ({ node := n, parent := some active.node,
         h_cost := heuristic n goal, g_cost := active.g_cost + c } :
        PathNode N) ∈ expandGo g heuristic goal active l := by
  induction l with
  | nil => simp
  | cons m ms ih =>
    intro n hn
    have hm : (g.weight active.node m).isSome := hw m (List.mem_cons_self _ _)
    obtain ⟨cm, hcm⟩ := Option.isSome_iff_exists.mp hm
    rcases List.mem_cons.mp hn with rfl | hn'
    · exact ⟨cm, hcm, by simp [expandGo, hcm]⟩
    · obtain ⟨c, hc, hmem⟩ :=
        ih (fun x hx => hw x (List.mem_cons_of_mem _ hx)) n hn'
      exact ⟨c, hc, by simp [expandGo, hcm, hmem]⟩

theorem sum_filter_mono {N : Type} (S : N → Nat) {P Q : N → Bool}
    (h : ∀ n, P n = true → Q n = true) :
    ∀ l : List N, ((l.filter P).map S).sum ≤ ((l.filter Q).map S).sum := by
  intro l
  induction l with
  | nil => simp
  | cons a t ih =>
    by_cases hP : P a = true
    · have hQ := h a hP
      simp only [List.filter_cons, hP, hQ, if_true, List.map_cons, List.sum_cons]
      omega
    · by_cases hQ : Q a = true
      · simp only [List.filter_cons, hP, hQ, if_true, if_false, Bool.false_eq_true]
        simp only [List.map_cons, List.sum_cons]
        have hmono := ih
        omega
      · simp only [List.filter_cons, hP, hQ, if_false]
        simpa using ih

theorem sum_filter_drop {N : Type} (S : N → Nat) {P Q : N → Bool}
    (h : ∀ n, P n = true → Q n = true) {u : N} (hQu : Q u = true)
    (hPu : ¬ P u = true) :
    ∀ l : List N, u ∈ l →
      ((l.filter P).map S).sum + S u ≤ ((l.filter Q).map S).sum := by
  intro l
  induction l with
  | nil => simp
  | cons a t ih =>
    intro hu
    rcases List.mem_cons.mp hu with rfl | hu'
    · simp only [List.filter_cons, hPu, hQu, if_true, if_false,
        Bool.false_eq_true]
      simp only [List.map_cons, List.sum_cons]
      have hmono := sum_filter_mono S h t
      omega
    · have hrec := ih hu'
      by_cases hP : P a = true
      · have hQ := h a hP
        simp only [List.filter_cons, hP, hQ, if_true, List.map_cons,
          List.sum_cons]
        omega
      · by_cases hQ : Q a = true
        · simp only [List.filter_cons, hP, hQ, if_true, if_false,
            Bool.false_eq_true]
          simp only [List.map_cons, List.sum_cons]
          omega
        · simp only [List.filter_cons, hP, hQ, if_false]
          simpa using hrec

theorem dist_nil_of_start_unclosed {N : Type} [DecidableEq N] {g : SPGraph N}
    {heuristic : N → N → Nat} {start goal : N} {frontier : List (PathNode N)}
    {dist : List (N × PathNode N)}
    (hinv : AStarInv g heuristic start goal frontier dist)
    (hs : lookupD dist start = none) : dist = [] := by
  cases hd : dist with
  | nil => rfl
  | cons kv t =>
    exfalso
    obtain ⟨k, v⟩ := kv
    have hk : k = start := by
      have := hinv.dfirst (k, v) (by rw [hd]; simp)
      simpa using this
    subst hk
    rw [hd] at hs
    simp [lookupD] at hs

theorem reconstruct_opt {N : Type} [DecidableEq N] {g : SPGraph N}
    {heuristic : N → N → Nat} {start goal : N}
    {frontier : List (PathNode N)} {dist : List (N × PathNode N)}
    (hinv : AStarInv g heuristic start goal frontier dist) :
    ∀ (i : Nat) (kv : N × PathNode N), dist[i]? = some kv →
      ∃ q, reconstruct dist (i + 1) kv.2 = some q ∧ q.head? = some kv.1 ∧
        listCost g q = some kv.2.g_cost := by
  intro i
  induction i using Nat.strong_induction_on with
  | _ i ih =>
    intro kv hkv
    obtain ⟨k, dv⟩ := kv
    have hlk : lookupD dist k = some dv := get?_lookupD hinv.dnodup hkv
    have hnode : dv.node = k := hinv.dnode k dv hlk
    cases hpar : dv.parent with
    | none =>
      obtain ⟨hks, hg0, _⟩ := hinv.dseed k dv hlk hpar
      refine ⟨[dv.node], ?_, by simp [hnode], ?_⟩
      · simp [reconstruct, hpar]
      · simp [listCost, hg0]
    | some p =>
      obtain ⟨j, dp, c, hji, hj, hmem, hw, hg⟩ :=
        hinv.dchain i (k, dv) hkv p hpar
      have hlkp : lookupD dist p = some dp := get?_lookupD hinv.dnodup hj
      obtain ⟨q', hq', hh', hc'⟩ := ih j hji (p, dp) hj
      have hq'' : reconstruct dist i dp = some q' :=
        reconstruct_mono (by omega) hq'
      refine ⟨dv.node :: q', ?_, by simp [hnode], ?_⟩
      · simp [reconstruct, hpar, hlkp, hq'']
      · cases q' with
        | nil => simp at hh'
        | cons b t =>
          have hb : b = p := by simpa using hh'
          rw [hb] at hc'
          rw [hb, hnode]
          simp only [listCost, hw, hc']
          rw [hg, Nat.add_comm]

theorem aStar_minPop {N : Type} [DecidableEq N] {g : SPGraph N}
    {heuristic : N → N → Nat} {start goal : N}
    {frontier : List (PathNode N)} {dist : List (N × PathNode N)}
    (hcons : ∀ u v c, v ∈ g.neighbours u → g.weight u v = some c →
      heuristic u goal ≤ c + heuristic v goal)
    (hinv : AStarInv g heuristic start goal frontier dist)
    {active : PathNode N} {rest : List (PathNode N)}
    (hsel : selectMinBy PathNode.f_cost frontier = some (active, rest))
    (hvac : lookupD dist active.node = none) :
    ∀ d, PathTo g start active.node d → active.g_cost ≤ d := by
  intro d hd
  have hnP : ¬ ((lookupD dist active.node).isSome = true) := by simp [hvac]
  rcases pathTo_firstCross (fun v => (lookupD dist v).isSome = true) hd hnP with
    hs | ⟨u, w, c', d₁, d₂, hu, hwn, hp1, hmem, hwt, hp2, hsum⟩
  · have hdist : dist = [] :=
      dist_nil_of_start_unclosed hinv (by
        cases h : lookupD dist start with
        | none => rfl
        | some v => exact absurd (by simp [h]) hs)
    have hfr := hinv.dempty hdist
    rw [hfr] at hsel
    have hact : active = PathNode.mk start none 0 0 := by
      have hone : selectMinBy PathNode.f_cost [PathNode.mk start none 0 0] =
          some (PathNode.mk start none 0 0, []) := rfl
      rw [hone] at hsel
      exact (congrArg Prod.fst (Option.some_inj.mp hsel)).symm
    rw [hact]
    exact Nat.zero_le d
  · obtain ⟨du, hdu⟩ := Option.isSome_iff_exists.mp hu
    rcases hinv.relax u du hdu w hmem with hws | ⟨e', he'mem, he'node, c'', hc'', he'g⟩
    · exact absurd hws hwn
    · have hcc : c'' = c' := by
        rw [hwt] at hc''
        exact (Option.some_inj.mp hc'').symm
      subst hcc
      have hdug : du.g_cost ≤ d₁ := (hinv.dopt u du hdu).2 d₁ hp1
      have hmin : active.f_cost ≤ e'.f_cost :=
        selectMinBy_min hsel e' he'mem
      cases he'par : e'.parent with
      | none =>
        obtain ⟨_, hg0, hh0⟩ := hinv.fseed e' he'mem he'par
        have hf0 : e'.f_cost = 0 := by simp [PathNode.f_cost, hg0, hh0]
        rw [hf0] at hmin
        have : active.g_cost = 0 := by
          simp [PathNode.f_cost] at hmin
          omega
        omega
      | some _ =>
        have hh' : e'.h_cost = heuristic e'.node goal :=
          hinv.fheur e' he'mem (by simp [he'par])
        have htel : heuristic w goal ≤ d₂ + heuristic active.node goal :=
          pathTo_heuristic_telescope hcons hp2
        have hfe' : e'.f_cost ≤ d + heuristic active.node goal := by
          simp only [PathNode.f_cost, hh', he'node]
          omega
        have hfa : active.f_cost ≤ d + heuristic active.node goal :=
          le_trans hmin hfe'
        cases hap : active.parent with
        | none =>
          have := (hinv.fseed active (selectMinBy_mem hsel) hap).2.1
          omega
        | some _ =>
          have hah : active.h_cost = heuristic active.node goal :=
            hinv.fheur active (selectMinBy_mem hsel) (by simp [hap])
          simp only [PathNode.f_cost, hah] at hfa
          omega

theorem aStar_no_replace {N : Type} [DecidableEq N] {g : SPGraph N}
    {heuristic : N → N → Nat} {start goal : N}
    {frontier rest : List (PathNode N)} {dist : List (N × PathNode N)}
    {active e : PathNode N}
    (hinv : AStarInv g heuristic start goal frontier dist)
    (hsel : selectMinBy PathNode.f_cost frontier = some (active, rest))
    (hl : lookupD dist active.node = some e) :
    ¬ active.f_cost < e.f_cost := by
  have hmem := selectMinBy_mem hsel
  have hreach := hinv.reach active hmem
  have hle : e.g_cost ≤ active.g_cost := (hinv.dopt _ e hl).2 _ hreach
  by_cases hus : active.node = start
  · have hpar := hinv.dstart e (by rwa [hus] at hl)
    obtain ⟨_, hg0, hh0⟩ := hinv.dseed _ e hl hpar
    simp only [PathNode.f_cost, hg0, hh0]
    omega
  · have hpar : e.parent ≠ none := fun hn => hus ((hinv.dseed _ e hl hn).1)
    have hh : e.h_cost = heuristic active.node goal := hinv.dheur _ e hl hpar
    have hap : active.parent ≠ none :=
      fun hn => hus ((hinv.fseed active hmem hn).1)
    have hah : active.h_cost = heuristic active.node goal :=
      hinv.fheur active hmem hap
    simp only [PathNode.f_cost, hh, hah]
    omega

theorem AStarInv_restrict {N : Type} [DecidableEq N] {g : SPGraph N}
    {heuristic : N → N → Nat} {start goal : N}
    {frontier rest : List (PathNode N)} {dist : List (N × PathNode N)}
    {active e : PathNode N}
    (hinv : AStarInv g heuristic start goal frontier dist)
    (hsel : selectMinBy PathNode.f_cost frontier = some (active, rest))
    (hl : lookupD dist active.node = some e) :
    AStarInv g heuristic start goal rest dist := by
  have hsub := selectMinBy_rest_subset hsel
  have hperm := selectMinBy_perm hsel
  refine ⟨fun e' he' => hinv.reach e' (hsub e' he'),
    fun e' he' => hinv.fseed e' (hsub e' he'),
    fun e' he' => hinv.fheur e' (hsub e' he'),
    fun e' he' => hinv.fchain e' (hsub e' he'),
    hinv.dnode, hinv.dopt, hinv.dseed, hinv.dheur, hinv.dchain, hinv.dnodup,
    hinv.dfirst, hinv.dstart, ?_, hinv.noend, ?_⟩
  · intro hd
    exfalso
    rw [hd] at hl
    simp [lookupD] at hl
  · intro v dv hdv n hn
    rcases hinv.relax v dv hdv n hn with hsome |
      ⟨e'', he''mem, he''node, c, hc, he''g⟩
    · exact Or.inl hsome
    · rcases List.mem_cons.mp (hperm.mem_iff.mpr he''mem) with heq | hr
      · refine Or.inl ?_
        rw [heq] at he''node
        rw [← he''node, hl]
        rfl
      · exact Or.inr ⟨e'', hr, he''node, c, hc, he''g⟩

theorem aStarPhi_restrict_lt {N : Type} [DecidableEq N] {g : SPGraph N}
    {univ : List N} {frontier rest : List (PathNode N)}
    {dist : List (N × PathNode N)} {active : PathNode N}
    (hsel : selectMinBy PathNode.f_cost frontier = some (active, rest)) :
    aStarPhi g univ rest dist < aStarPhi g univ frontier dist := by
  have hlen : rest.length + 1 = frontier.length := by
    have := (selectMinBy_perm hsel).length_eq
    simpa using this
  unfold aStarPhi
  omega

theorem AStarInv_insert {N : Type} [DecidableEq N] {g : SPGraph N}
    {heuristic : N → N → Nat} {start goal : N}
    {frontier rest : List (PathNode N)} {dist : List (N × PathNode N)}
    {active : PathNode N}
    (hnd : ∀ u v, v ∈ g.neighbours u → (g.weight u v).isSome)
    (hcons : ∀ u v c, v ∈ g.neighbours u → g.weight u v = some c →
      heuristic u goal ≤ c + heuristic v goal)
    (hinv : AStarInv g heuristic start goal frontier dist)
    (hsel : selectMinBy PathNode.f_cost frontier = some (active, rest))
    (hvac : lookupD dist active.node = none)
    (hgoal : active.node ≠ goal) :
    AStarInv g heuristic start goal
      (rest ++ expand g heuristic goal (insertD dist active.node active) active)
      (insertD dist active.node active) := by
  have hmem := selectMinBy_mem hsel
  have hsub := selectMinBy_rest_subset hsel
  have hperm := selectMinBy_perm hsel
  have hreach := hinv.reach active hmem
  have hminp := aStar_minPop hcons hinv hsel hvac
  have hins : insertD dist active.node active = dist ++ [(active.node, active)] :=
    insertD_of_lookup_none hvac
  have hseed_of_nil : dist = [] → active = PathNode.mk start none 0 0 := by
    intro hdist
    have hfr := hinv.dempty hdist
    rw [hfr] at hsel
    have hone : selectMinBy PathNode.f_cost [PathNode.mk start none 0 0] =
        some (PathNode.mk start none 0 0, []) := rfl
    rw [hone] at hsel
    exact (congrArg Prod.fst (Option.some_inj.mp hsel)).symm
  have hexp : ∀ e ∈ expand g heuristic goal
      (insertD dist active.node active) active,
      e.parent = some active.node ∧ e.node ∈ g.neighbours active.node ∧
      e.h_cost = heuristic e.node goal ∧
      ∃ c, g.weight active.node e.node = some c ∧
        e.g_cost = active.g_cost + c := by
    intro e he
    obtain ⟨h1, h2, _, h4, h5⟩ := expandGo_mem he
    exact ⟨h1, (List.mem_filter.mp h2).1, h4, h5⟩
  refine ⟨?_, ?_, ?_, ?_, ?_, ?_, ?_, ?_, ?_, ?_, ?_, ?_, ?_, ?_, ?_⟩
  · intro e he
    rcases List.mem_append.mp he with hr | hx
    · exact hinv.reach e (hsub e hr)
    · obtain ⟨_, h2, _, c, hc, hg⟩ := hexp e hx
      rw [hg]
      exact PathTo.step hreach h2 hc
  · intro e he hpar
    rcases List.mem_append.mp he with hr | hx
    · exact hinv.fseed e (hsub e hr) hpar
    · obtain ⟨h1, _, _, _⟩ := hexp e hx
      rw [hpar] at h1
      cases h1
  · intro e he hpar
    rcases List.mem_append.mp he with hr | hx
    · exact hinv.fheur e (hsub e hr) hpar
    · exact (hexp e hx).2.2.1
  · intro e he p hpar
    rcases List.mem_append.mp he with hr | hx
    · obtain ⟨dp, c, hdp, hmm, hww, hgg⟩ := hinv.fchain e (hsub e hr) p hpar
      refine ⟨dp, c, ?_, hmm, hww, hgg⟩
      have hpu : p ≠ active.node := by
        intro hpu
        rw [hpu, hvac] at hdp
        cases hdp
      rw [lookupD_insertD_ne hpu]
      exact hdp
    · obtain ⟨h1, h2, _, c, hc, hg⟩ := hexp e hx
      rw [hpar] at h1
      cases h1
      exact ⟨active, c, lookupD_insertD_self, h2, hc, hg⟩
  · intro v dv hdv
    by_cases hvu : v = active.node
    · subst hvu
      rw [lookupD_insertD_self] at hdv
      cases hdv
      rfl
    · rw [lookupD_insertD_ne hvu] at hdv
      exact hinv.dnode v dv hdv
  · intro v dv hdv
    by_cases hvu : v = active.node
    · subst hvu
      rw [lookupD_insertD_self] at hdv
      cases hdv
      exact ⟨hreach, hminp⟩
    · rw [lookupD_insertD_ne hvu] at hdv
      exact hinv.dopt v dv hdv
  · intro v dv hdv hpar
    by_cases hvu : v = active.node
    · subst hvu
      rw [lookupD_insertD_self] at hdv
      cases hdv
      exact hinv.fseed active hmem hpar
    · rw [lookupD_insertD_ne hvu] at hdv
      exact hinv.dseed v dv hdv hpar
  · intro v dv hdv hpar
    by_cases hvu : v = active.node
    · subst hvu
      rw [lookupD_insertD_self] at hdv
      cases hdv
      exact hinv.fheur active hmem hpar
    · rw [lookupD_insertD_ne hvu] at hdv
      exact hinv.dheur v dv hdv hpar
  · intro i kv hkv p hpar
    rw [hins] at hkv
    by_cases hilt : i < dist.length
    · rw [List.getElem?_append_left hilt] at hkv
      obtain ⟨j, dp, c, hji, hj, hm, hw, hg⟩ := hinv.dchain i kv hkv p hpar
      have hjlt : j < dist.length := by omega
      refine ⟨j, dp, c, hji, ?_, hm, hw, hg⟩
      rw [hins, List.getElem?_append_left hjlt]
      exact hj
    · by_cases hieq : i = dist.length
      · subst hieq
        have hkv' : kv = (active.node, active) := by
          rw [List.getElem?_concat_length] at hkv
          exact (Option.some_inj.mp hkv).symm
        subst hkv'
        obtain ⟨dp, c, hdp, hm, hw, hg⟩ := hinv.fchain active hmem p hpar
        obtain ⟨j, hj⟩ := lookupD_get? hdp
        have hjlt : j < dist.length := (List.getElem?_eq_some.mp hj).1
        refine ⟨j, dp, c, hjlt, ?_, hm, hw, hg⟩
        rw [hins, List.getElem?_append_left hjlt]
        exact hj
      · exfalso
        have hge : (dist ++ [(active.node, active)]).length ≤ i := by
          simp only [List.length_append, List.length_cons, List.length_nil]
          omega
        rw [List.getElem?_eq_none hge] at hkv
        cases hkv
  · rw [hins, List.map_append]
    rw [List.nodup_append]
    exact ⟨hinv.dnodup, List.nodup_singleton _,
      fun a ha hb => by
        simp only [List.map_cons, List.map_nil, List.mem_singleton] at hb
        subst hb
        exact (lookupD_eq_none_iff.mp hvac) ha⟩
  · intro kv hkv
    rw [hins] at hkv
    by_cases hlen : 0 < dist.length
    · rw [List.getElem?_append_left hlen] at hkv
      exact hinv.dfirst kv hkv
    · have hd : dist = [] := List.length_eq_zero.mp (by omega)
      have hact := hseed_of_nil hd
      rw [hd] at hkv
      simp only [List.nil_append, List.getElem?_cons_zero,
        Option.some.injEq] at hkv
      rw [← hkv, hact]
  · intro dv hdv
    by_cases hus : active.node = start
    · rw [← hus, lookupD_insertD_self] at hdv
      cases hdv
      have hd : dist = [] := dist_nil_of_start_unclosed hinv (hus ▸ hvac)
      rw [hseed_of_nil hd]
    · rw [lookupD_insertD_ne (fun h => hus h.symm)] at hdv
      exact hinv.dstart dv hdv
  · intro hd
    rw [hins] at hd
    simp at hd
  · rw [lookupD_insertD_ne (fun h => hgoal h.symm)]
    exact hinv.noend
  · intro v dv hdv n hn
    by_cases hvu : v = active.node
    · subst hvu
      rw [lookupD_insertD_self] at hdv
      cases hdv
      cases hsome : lookupD (insertD dist active.node active) n with
      | some dn => exact Or.inl (by simp [hsome])
      | none =>
        have hfilt : n ∈ (g.neighbours active.node).filter
            (fun m => (lookupD (insertD dist active.node active) m).isNone) := by
          rw [List.mem_filter]
          exact ⟨hn, by simp [hsome]⟩
        have hwall : ∀ m ∈ (g.neighbours active.node).filter
            (fun m => (lookupD (insertD dist active.node active) m).isNone),
            (g.weight active.node m).isSome :=
          fun m hm => hnd _ _ (List.mem_filter.mp hm).1
        obtain ⟨c, hc, hmem'⟩ := expandGo_covers hwall n hfilt
        exact Or.inr ⟨_, List.mem_append_right _ hmem', rfl, c, hc, le_refl _⟩
    · rw [lookupD_insertD_ne hvu] at hdv
      rcases hinv.relax v dv hdv n hn with hsome |
        ⟨e'', he''mem, he''node, c, hc, he''g⟩
      · exact Or.inl (lookupD_insertD_isSome_mono hsome)
      · rcases List.mem_cons.mp (hperm.mem_iff.mpr he''mem) with heq | hr
        · refine Or.inl ?_
          rw [heq] at he''node
          rw [← he''node, lookupD_insertD_self]
          rfl
        · exact Or.inr ⟨e'', List.mem_append_left _ hr, he''node, c, hc, he''g⟩

theorem aStarPhi_insert_lt {N : Type} [DecidableEq N] {g : SPGraph N}
    {heuristic : N → N → Nat} {start goal : N} {univ : List N}
    {frontier rest : List (PathNode N)} {dist : List (N × PathNode N)}
    {active : PathNode N}
    (hstart : start ∈ univ)
    (hclosed : ∀ u ∈ univ, ∀ v ∈ g.neighbours u, v ∈ univ)
    (hinv : AStarInv g heuristic start goal frontier dist)
    (hsel : selectMinBy PathNode.f_cost frontier = some (active, rest))
    (hvac : lookupD dist active.node = none) :
    aStarPhi g univ
      (rest ++ expand g heuristic goal (insertD dist active.node active) active)
      (insertD dist active.node active) < aStarPhi g univ frontier dist := by
  have hlen : rest.length + 1 = frontier.length := by
    have := (selectMinBy_perm hsel).length_eq
    simpa using this
  have hexplen : (expand g heuristic goal
      (insertD dist active.node active) active).length ≤
      (g.neighbours active.node).length :=
    le_trans (expandGo_length_le _) (List.length_filter_le _ _)
  have humem : active.node ∈ univ :=
    pathTo_mem_univ hstart hclosed (hinv.reach active (selectMinBy_mem hsel))
  have hmono : ∀ n : N,
      (fun m => (lookupD (insertD dist active.node active) m).isNone) n = true →
      (fun m => (lookupD dist m).isNone) n = true := by
    intro n hP
    simp only [Option.isNone_iff_eq_none] at hP ⊢
    by_cases hnu : n = active.node
    · rw [hnu, lookupD_insertD_self] at hP
      cases hP
    · rwa [lookupD_insertD_ne hnu] at hP
  have hdrop : ((univ.filter fun n =>
        (lookupD (insertD dist active.node active) n).isNone).map
        fun n => (g.neighbours n).length + 1).sum +
      ((g.neighbours active.node).length + 1) ≤
      ((univ.filter fun n => (lookupD dist n).isNone).map
        fun n => (g.neighbours n).length + 1).sum :=
    sum_filter_drop (fun n => (g.neighbours n).length + 1) hmono
      (by simp [hvac]) (by simp [lookupD_insertD_self]) univ humem
  unfold aStarPhi
  simp only [List.length_append]
  omega

theorem aStarLoop_consistent_optimal {N : Type} [DecidableEq N]
    {g : SPGraph N} {heuristic : N → N → Nat} {start goal : N} {univ : List N}
    (hstart : start ∈ univ)
    (hclosed : ∀ u ∈ univ, ∀ v ∈ g.neighbours u, v ∈ univ)
    (hnd : ∀ u v, v ∈ g.neighbours u → (g.weight u v).isSome)
    (hcons : ∀ u v c, v ∈ g.neighbours u → g.weight u v = some c →
      heuristic u goal ≤ c + heuristic v goal)
    {d₀ : Nat} (hpath : PathTo g start goal d₀) :
    ∀ fuel (frontier : List (PathNode N)) (dist : List (N × PathNode N)),
      AStarInv g heuristic start goal frontier dist →
      aStarPhi g univ frontier dist < fuel →
      ∃ p c, aStarLoop g heuristic goal fuel frontier dist = .found p ∧
        listCost g p = some c ∧ PathTo g start goal c ∧
        ∀ d, PathTo g start goal d → c ≤ d := by
  intro fuel
  induction fuel with
  | zero =>
    intro frontier dist _ hphi
    exact absurd hphi (Nat.not_lt_zero _)
  | succ fuel ih =>
    intro frontier dist hinv hphi
    have hfr_ne : selectMinBy PathNode.f_cost frontier ≠ none := by
      intro hsel
      have hfr : frontier = [] := selectMinBy_eq_none.mp hsel
      have hnPgoal : ¬ ((lookupD dist goal).isSome = true) := by
        simp [hinv.noend]
      rcases pathTo_firstCross (fun v => (lookupD dist v).isSome = true) hpath
        hnPgoal with hs | ⟨u, w, c', d₁, d₂, hu, hwn, hp1, hmm, hwt, hp2, hsum⟩
      · have hdist : dist = [] := dist_nil_of_start_unclosed hinv (by
          cases h : lookupD dist start with
          | none => rfl
          | some v => exact absurd (by simp [h]) hs)
        have := hinv.dempty hdist
        rw [hfr] at this
        cases this
      · obtain ⟨du, hdu⟩ := Option.isSome_iff_exists.mp hu
        rcases hinv.relax u du hdu w hmm with hws | ⟨e', he'mem, _⟩
        · exact hwn hws
        · rw [hfr] at he'mem
          simp at he'mem
    cases hsel : selectMinBy PathNode.f_cost frontier with
    | none => exact absurd hsel hfr_ne
    | some ar =>
      obtain ⟨active, rest⟩ := ar
      by_cases hgoal : active.node = goal
      · have hvac : lookupD dist active.node = none := by
          rw [hgoal]
          exact hinv.noend
        have hmin := aStar_minPop hcons hinv hsel hvac
        have hreach : PathTo g start active.node active.g_cost :=
          hinv.reach active (selectMinBy_mem hsel)
        cases hap : active.parent with
        | none =>
          obtain ⟨hnode, hg0, _⟩ :=
            hinv.fseed active (selectMinBy_mem hsel) hap
          refine ⟨[active.node], active.g_cost, ?_, ?_, hgoal ▸ hreach,
            fun d hd => hmin d (hgoal ▸ hd)⟩
          · simp only [aStarLoop, hsel]
            rw [if_pos hgoal]
            simp [reconstruct, hap]
          · simp [listCost, hg0]
        | some p =>
          obtain ⟨dp, c, hlkp, hmm, hw, hg⟩ :=
            hinv.fchain active (selectMinBy_mem hsel) p hap
          obtain ⟨j, hj⟩ := lookupD_get? hlkp
          have hjlt : j < dist.length := (List.getElem?_eq_some.mp hj).1
          obtain ⟨q', hq', hh', hc'⟩ := reconstruct_opt hinv j (p, dp) hj
          have hq'' : reconstruct dist dist.length dp = some q' :=
            reconstruct_mono (by omega) hq'
          have hrecon : reconstruct dist (dist.length + 1) active =
              some (active.node :: q') := by
            simp [reconstruct, hap, hlkp, hq'']
          refine ⟨active.node :: q', active.g_cost, ?_, ?_, hgoal ▸ hreach,
            fun d hd => hmin d (hgoal ▸ hd)⟩
          · simp only [aStarLoop, hsel]
            rw [if_pos hgoal]
            simp [hrecon]
          · cases q' with
            | nil => simp at hh'
            | cons b t =>
              have hb : b = p := by simpa using hh'
              rw [hb] at hc' ⊢
              simp only [listCost, hw, hc']
              rw [hg, Nat.add_comm]
      · cases hl : lookupD dist active.node with
        | some e =>
          have hnorep := aStar_no_replace hinv hsel hl
          have hstep : aStarLoop g heuristic goal (fuel + 1) frontier dist =
              aStarLoop g heuristic goal fuel rest dist := by
            simp only [aStarLoop, hsel]
            rw [if_neg hgoal]
            simp only [hl]
            rw [if_neg hnorep]
          rw [hstep]
          refine ih rest dist (AStarInv_restrict hinv hsel hl) ?_
          have hlt : aStarPhi g univ rest dist < aStarPhi g univ frontier dist :=
            aStarPhi_restrict_lt hsel
          omega
        | none =>
          have hstep : aStarLoop g heuristic goal (fuel + 1) frontier dist =
              aStarLoop g heuristic goal fuel
                (rest ++ expand g heuristic goal
                  (insertD dist active.node active) active)
                (insertD dist active.node active) := by
            simp only [aStarLoop, hsel]
            rw [if_neg hgoal]
            simp only [hl]
          rw [hstep]
          refine ih _ _ (AStarInv_insert hnd hcons hinv hsel hl hgoal) ?_
          have hlt : aStarPhi g univ
              (rest ++ expand g heuristic goal
                (insertD dist active.node active) active)
              (insertD dist active.node active) <
              aStarPhi g univ frontier dist :=
            aStarPhi_insert_lt hstart hclosed hinv hsel hl
          omega

/-- C1 (amended): for every finite graph (node universe `univ` closed under
neighbours) with no dangling edges, every pair of nodes joined by a path, and
every heuristic that is consistent along the graph's edges
(`h(u) ≤ w(u,v) + h(v)`), `a_star`, given enough fuel, returns a path whose
accumulated edge-weight sum equals the minimum achievable over all paths from
`start` to `goal`.  (The original claim with merely admissible heuristics is
refuted by `c1_admissible_not_optimal`; dangling edges break it through the
expansion `break`, see C3/C4.) -/
theorem c1_amended_consistent_optimal {N : Type} [DecidableEq N]
    (g : SPGraph N) (start goal : N) (heuristic : N → N → Nat) (univ : List N)
    (hstart : start ∈ univ)
    (hclosed : ∀ u ∈ univ, ∀ v ∈ g.neighbours u, v ∈ univ)
    (hnd : ∀ u v, v ∈ g.neighbours u → (g.weight u v).isSome)
    (hcons : ∀ u v c, v ∈ g.neighbours u → g.weight u v = some c →
      heuristic u goal ≤ c + heuristic v goal)
    (d₀ : Nat) (hpath : PathTo g start goal d₀) :
    ∃ F, ∀ fuel, F ≤ fuel → ∃ p c,
      a_star g start goal heuristic fuel = .found p ∧
      listCost g p = some c ∧ PathTo g start goal c ∧
      ∀ d, PathTo g start goal d → c ≤ d := by
  refine ⟨aStarPhi g univ [PathNode.mk start none 0 0] [] + 1,
    fun fuel hfuel => ?_⟩
  have hinv0 : AStarInv g heuristic start goal
      [PathNode.mk start none 0 0] [] := by
    refine ⟨?_, ?_, ?_, ?_, ?_, ?_, ?_, ?_, ?_, ?_, ?_, ?_, ?_, ?_, ?_⟩
    · intro e he
      rcases List.mem_singleton.mp he with rfl
      exact PathTo.refl
    · intro e he _
      rcases List.mem_singleton.mp he with rfl
      exact ⟨rfl, rfl, rfl⟩
    · intro e he hpar
      rcases List.mem_singleton.mp he with rfl
      exact absurd rfl hpar
    · intro e he p hpar
      rcases List.mem_singleton.mp he with rfl
      cases hpar
    · intro v dv hdv
      simp [lookupD] at hdv
    · intro v dv hdv
      simp [lookupD] at hdv
    · intro v dv hdv
      simp [lookupD] at hdv
    · intro v dv hdv
      simp [lookupD] at hdv
    · intro i kv hkv
      simp at hkv
    · simp
    · intro kv hkv
      simp at hkv
    · intro dv hdv
      simp [lookupD] at hdv
    · intro _
      rfl
    · rfl
    · intro v dv hdv
      simp [lookupD] at hdv
  exact aStarLoop_consistent_optimal hstart hclosed hnd hcons hpath fuel _ _
    hinv0 (by omega)

/-- C1 amended-claim witness: the optimality statement instantiated on the
dangling-free graph `gCex` with the zero heuristic (which is consistent),
from 0 to 3. -/
theorem c1_amended_consistent_optimal_witness :
    ∃ F, ∀ fuel, F ≤ fuel → ∃ p c,
      a_star gCex 0 3 (fun _ _ => 0) fuel = .found p ∧
      listCost gCex p = some c ∧ PathTo gCex 0 3 c ∧
      ∀ d, PathTo gCex 0 3 d → c ≤ d := by
  have hpath : PathTo gCex 0 3 15 := by
    have s1 : PathTo gCex 0 2 (0 + 5) :=
      PathTo.step PathTo.refl (by decide) rfl
    have s2 : PathTo gCex 0 3 (0 + 5 + 10) :=
      PathTo.step s1 (by decide) rfl
    simpa using s2
  refine c1_amended_consistent_optimal gCex 0 3 (fun _ _ => 0) [0, 1, 2, 3]
    (by decide) ?_ ?_ ?_ 15 hpath
  · intro u hu v hv
    fin_cases hu <;> fin_cases hv <;> decide
  · intro u v hv
    rcases u with _ | _ | _ | u
    · fin_cases hv <;> decide
    · fin_cases hv <;> decide
    · fin_cases hv <;> decide
    · simp [gCex] at hv
  · intro u v c _ _
    simp

/-- C1 counterexample: on `gCex` with the admissible (but inconsistent)
heuristic `hCex`, `a_star` from 0 to 3 returns the path `[3, 2, 0]` of
accumulated weight 15, although a path of weight 12 exists — so the returned
sum is not the minimum achievable.  (Node 2 is closed with the suboptimal cost
5 before the cheaper route through node 1 is examined; the expansion filter
then never relaxes `1 → 2` again.) -/
theorem c1_admissible_not_optimal :
    (∀ v d, PathTo gCex v 3 d → hCex v 3 ≤ d) ∧
      a_star gCex 0 3 hCex 50 = .found [3, 2, 0] ∧
      listCost gCex [3, 2, 0] = some 15 ∧
      PathTo gCex 0 3 12 ∧
      ¬ (∀ d, PathTo gCex 0 3 d → 15 ≤ d) := by
  have hadm : ∀ v d, PathTo gCex v 3 d → hCex v 3 ≤ d := by
    intro v d h
    unfold hCex
    by_cases hv : v = 1
    · subst hv
      have h10 : (if (1 : Nat) = 1 then 10 else 0) = 10 := rfl
      rw [h10]
      cases h with
      | step hp hm hw =>
        rename_i u c d'
        match u, hw with
        | 2, hw =>
          have hc : c = 10 := by
            simpa [gCex] using hw.symm
          omega
    · simp [hv]
  have hp12 : PathTo gCex 0 3 12 := by
    have s1 : PathTo gCex 0 1 (0 + 1) :=
      PathTo.step PathTo.refl (by decide) rfl
    have s2 : PathTo gCex 0 2 (0 + 1 + 1) :=
      PathTo.step s1 (by decide) rfl
    have s3 : PathTo gCex 0 3 (0 + 1 + 1 + 10) :=
      PathTo.step s2 (by decide) rfl
    simpa using s3
  exact ⟨hadm, by rfl, by rfl, hp12, fun hall => by
    have := hall 12 hp12
    omega⟩

theorem grow_length {N E : Type} [DecidableEq N] [DecidableEq E]
    {g : MGraph N E} :
    ∀ {es : List E} {s c : List N}, grow g s es = some c →
      c.length = s.length + es.length := by
  intro es
  induction es with
  | nil =>
    intro s c h
    simp only [grow, Option.some.injEq] at h
    subst h
    simp
  | cons e es ih =>
    intro s c h
    cases ht : g.target e with
    | none => simp [grow, ht] at h
    | some n =>
      by_cases hn : n ∈ s
      · simp [grow, ht, hn] at h
      · by_cases hs : (s.any fun u => e ∈ g.outgoing_edges u) = true
        · simp only [grow, ht, if_neg hn, hs, if_true] at h
          have := ih h
          simp only [List.length_cons] at this ⊢
          omega
        · simp [grow, ht, hn, hs] at h

theorem grow_append {N E : Type} [DecidableEq N] [DecidableEq E]
    {g : MGraph N E} {e : E} {n : N} :
    ∀ {es : List E} {s c : List N}, grow g s es = some c →
      g.target e = some n → n ∉ c → (∃ u ∈ c, e ∈ g.outgoing_edges u) →
      grow g s (es ++ [e]) = some (n :: c) := by
  intro es
  induction es with
  | nil =>
    intro s c h ht hn hsrc
    simp only [grow, Option.some.injEq] at h
    subst h
    obtain ⟨u, hu, he⟩ := hsrc
    have hany : (s.any fun u => e ∈ g.outgoing_edges u) = true :=
      List.any_eq_true.mpr ⟨u, hu, by simpa using he⟩
    simp [grow, ht, hn, hany]
  | cons e' es ih =>
    intro s c h ht hn hsrc
    cases ht' : g.target e' with
    | none => simp [grow, ht'] at h
    | some n' =>
      by_cases hn' : n' ∈ s
      · simp [grow, ht', hn'] at h
      · by_cases hs : (s.any fun u => e' ∈ g.outgoing_edges u) = true
        · simp only [grow, ht', if_neg hn', hs, if_true] at h
          rw [List.cons_append]
          simp only [grow, ht', if_neg hn', hs, if_true]
          exact ih h ht hn hsrc
        · simp [grow, ht', hn', hs] at h

theorem primsPushes_mem {N E : Type} [DecidableEq N] {g : MGraph N E}
    {conn : List N} {n : N} {ce : Nat × E}
    (h : ce ∈ primsPushes g conn n) :
    ce.1 = g.weight ce.2 ∧ ce.2 ∈ g.outgoing_edges n ∧
      ∀ m, g.target ce.2 = some m → m ∉ conn := by
  obtain ⟨hmem, hfilt⟩ := List.mem_filter.mp h
  obtain ⟨e, he, rfl⟩ := List.mem_map.mp hmem
  refine ⟨rfl, he, fun m hm => ?_⟩
  rw [hm] at hfilt
  simpa using hfilt

theorem primsPushes_covers {N E : Type} [DecidableEq N] {g : MGraph N E}
    {conn : List N} {n m : N} {e : E} (he : e ∈ g.outgoing_edges n)
    (ht : g.target e = some m) (hm : m ∉ conn) :
    (g.weight e, e) ∈ primsPushes g conn n := by
  refine List.mem_filter.mpr ⟨List.mem_map.mpr ⟨e, he, rfl⟩, ?_⟩
  rw [ht]
  simpa using hm

theorem primsPushes_length_le {N E : Type} [DecidableEq N] {g : MGraph N E}
    {conn : List N} {n : N} :
    (primsPushes g conn n).length ≤ (g.outgoing_edges n).length :=
  le_trans (List.length_filter_le _ _) (by simp)

theorem primsPhi_restrict_lt {N E : Type} [DecidableEq N] {g : MGraph N E}
    {univ : List N} {frontier rest : List (Nat × E)} {conn : List N}
    {ce : Nat × E}
    (hsel : selectMinBy Prod.fst frontier = some (ce, rest)) :
    primsPhi g univ rest conn < primsPhi g univ frontier conn := by
  have hlen : rest.length + 1 = frontier.length := by
    simpa using (selectMinBy_perm hsel).length_eq
  unfold primsPhi
  omega

theorem primsPhi_connect_lt {N E : Type} [DecidableEq N] {g : MGraph N E}
    {univ : List N} {frontier rest : List (Nat × E)} {conn : List N}
    {ce : Nat × E} {n : N}
    (hsel : selectMinBy Prod.fst frontier = some (ce, rest))
    (hn : n ∉ conn) (hnu : n ∈ univ) :
    primsPhi g univ (rest ++ primsPushes g (n :: conn) n) (n :: conn) <
      primsPhi g univ frontier conn := by
  have hlen : rest.length + 1 = frontier.length := by
    simpa using (selectMinBy_perm hsel).length_eq
  have hpl : (primsPushes g (n :: conn) n).length ≤
      (g.outgoing_edges n).length := primsPushes_length_le
  have hmono : ∀ m : N, (fun x => decide (x ∉ n :: conn)) m = true →
      (fun x => decide (x ∉ conn)) m = true := by
    intro m hm
    simp only [decide_eq_true_eq, List.mem_cons, not_or] at hm ⊢
    exact hm.2
  have hdrop : ((univ.filter fun m => decide (m ∉ n :: conn)).map
        fun m => (g.outgoing_edges m).length + 1).sum +
      ((g.outgoing_edges n).length + 1) ≤
      ((univ.filter fun m => decide (m ∉ conn)).map
        fun m => (g.outgoing_edges m).length + 1).sum :=
    sum_filter_drop (fun m => (g.outgoing_edges m).length + 1) hmono
      (by simpa using hn) (by simp) univ hnu
  unfold primsPhi
  simp only [List.length_append]
  omega

theorem primsLoop_spanning {N E : Type} [DecidableEq N] [DecidableEq E]
    {g : MGraph N E} {start : N} {univ : List N}
    (hclosed : ∀ u ∈ univ, ∀ e ∈ g.outgoing_edges u, ∀ n,
      g.target e = some n → n ∈ univ) :
    ∀ fuel (frontier : List (Nat × E)) (conn : List N) (edges : List E),
      PrimsInv g start frontier conn edges → (∀ v ∈ conn, v ∈ univ) →
      primsPhi g univ frontier conn < fuel →
      ∃ edges' conn', primsLoop g fuel frontier conn edges = some edges' ∧
        grow g [start] edges' = some conn' ∧
        (∀ v, v ∈ conn' ↔ ReachE g start v) ∧ conn'.Nodup ∧
        edges'.length + 1 = conn'.length := by
  intro fuel
  induction fuel with
  | zero =>
    intro frontier conn edges _ _ hphi
    exact absurd hphi (Nat.not_lt_zero _)
  | succ fuel ih =>
    intro frontier conn edges hinv hconnu hphi
    cases hsel : selectMinBy (Prod.fst : Nat × E → Nat) frontier with
    | none =>
      have hfr : frontier = [] := selectMinBy_eq_none.mp hsel
      refine ⟨edges, conn, ?_, hinv.growInv, ?_, hinv.connNodup, ?_⟩
      · simp only [primsLoop, hsel]
      · intro v
        constructor
        · exact hinv.connReach v
        · intro hv
          induction hv with
          | refl => exact hinv.connStart
          | @step u w e _ he ht ih2 =>
            rcases hinv.relax u ih2 e he w ht with h | h
            · exact h
            · rw [hfr] at h
              simp at h
      · have := grow_length hinv.growInv
        simp at this
        omega
    | some p =>
      obtain ⟨ce, rest⟩ := p
      have hperm := selectMinBy_perm hsel
      have hsub := selectMinBy_rest_subset hsel
      have hmemce := selectMinBy_mem hsel
      obtain ⟨hcew, u, hu, hce⟩ := hinv.frontSrc ce hmemce
      cases htgt : g.target ce.2 with
      | none =>
        have hstep : primsLoop g (fuel + 1) frontier conn edges =
            primsLoop g fuel rest conn edges := by
          simp only [primsLoop, hsel, htgt]
        rw [hstep]
        refine ih rest conn edges
          ⟨hinv.connStart, hinv.connReach, hinv.connNodup,
            fun ce' h => hinv.frontSrc ce' (hsub ce' h), ?_, hinv.growInv⟩
          hconnu ?_
        · intro u' hu' e he m ht
          rcases hinv.relax u' hu' e he m ht with h | h
          · exact Or.inl h
          · rcases List.mem_cons.mp (hperm.mem_iff.mpr h) with heq | hr
            · exfalso
              have he2 : e = ce.2 := congrArg Prod.snd heq
              rw [he2, htgt] at ht
              cases ht
            · exact Or.inr hr
        · have hlt : primsPhi g univ rest conn <
              primsPhi g univ frontier conn := primsPhi_restrict_lt hsel
          omega
      | some n =>
        by_cases hn : n ∈ conn
        · have hstep : primsLoop g (fuel + 1) frontier conn edges =
              primsLoop g fuel rest conn edges := by
            simp only [primsLoop, hsel, htgt]
            rw [if_pos hn]
          rw [hstep]
          refine ih rest conn edges
            ⟨hinv.connStart, hinv.connReach, hinv.connNodup,
              fun ce' h => hinv.frontSrc ce' (hsub ce' h), ?_, hinv.growInv⟩
            hconnu ?_
          · intro u' hu' e he m ht
            rcases hinv.relax u' hu' e he m ht with h | h
            · exact Or.inl h
            · rcases List.mem_cons.mp (hperm.mem_iff.mpr h) with heq | hr
              · have he2 : e = ce.2 := congrArg Prod.snd heq
                rw [he2, htgt] at ht
                cases ht
                exact Or.inl hn
              · exact Or.inr hr
          · have hlt : primsPhi g univ rest conn <
                primsPhi g univ frontier conn := primsPhi_restrict_lt hsel
            omega
        · have hstep : primsLoop g (fuel + 1) frontier conn edges =
              primsLoop g fuel (rest ++ primsPushes g (n :: conn) n)
                (n :: conn) (edges ++ [ce.2]) := by
            simp only [primsLoop, hsel, htgt]
            rw [if_neg hn]
          rw [hstep]
          have hreachn : ReachE g start n :=
            ReachE.step (hinv.connReach u hu) hce htgt
          have hinv' : PrimsInv g start (rest ++ primsPushes g (n :: conn) n)
              (n :: conn) (edges ++ [ce.2]) := by
            refine ⟨List.mem_cons_of_mem _ hinv.connStart, ?_, ?_, ?_, ?_, ?_⟩
            · intro v hv
              rcases List.mem_cons.mp hv with rfl | hv'
              · exact hreachn
              · exact hinv.connReach v hv'
            · exact List.nodup_cons.mpr ⟨hn, hinv.connNodup⟩
            · intro ce' h
              rcases List.mem_append.mp h with hr | hp
              · obtain ⟨h1, u', hu', he'⟩ := hinv.frontSrc ce' (hsub ce' hr)
                exact ⟨h1, u', List.mem_cons_of_mem _ hu', he'⟩
              · obtain ⟨h1, h2, _⟩ := primsPushes_mem hp
                exact ⟨h1, n, List.mem_cons_self _ _, h2⟩
            · intro u' hu' e he m ht
              rcases List.mem_cons.mp hu' with heq | hu''
              · by_cases hm : m ∈ n :: conn
                · exact Or.inl hm
                · exact Or.inr
                    (List.mem_append_right _
                      (primsPushes_covers (heq ▸ he) ht hm))
              · rcases hinv.relax u' hu'' e he m ht with h | h
                · exact Or.inl (List.mem_cons_of_mem _ h)
                · rcases List.mem_cons.mp (hperm.mem_iff.mpr h) with heq | hr
                  · have he2 : e = ce.2 := congrArg Prod.snd heq
                    rw [he2, htgt] at ht
                    cases ht
                    exact Or.inl (List.mem_cons_self _ _)
                  · exact Or.inr (List.mem_append_left _ hr)
            · exact grow_append hinv.growInv htgt hn ⟨u, hu, hce⟩
          refine ih _ _ _ hinv' ?_ ?_
          · intro v hv
            rcases List.mem_cons.mp hv with rfl | hv'
            · exact hclosed u (hconnu u hu) ce.2 hce v htgt
            · exact hconnu v hv'
          · have hlt : primsPhi g univ
                (rest ++ primsPushes g (n :: conn) n) (n :: conn) <
                primsPhi g univ frontier conn :=
              primsPhi_connect_lt hsel hn
                (hclosed u (hconnu u hu) ce.2 hce n htgt)
            omega

/-- C7: for every finite graph (node universe closed under edge targets) with
no dangling edges and every start node, `prims`, given enough fuel, returns a
sequence of exactly (number of nodes reachable from `start` − 1) edges forming
a spanning tree over the component reachable from `start`: `grow` certifies
that each returned edge, in order, leaves an already covered node and reaches
a fresh one, and the final covered set is exactly the reachable component. -/
theorem c7_prims_spanning_tree {N E : Type} [DecidableEq N] [DecidableEq E]
    (g : MGraph N E) (start : N) (univ : List N)
    (hstart : start ∈ univ)
    (hclosed : ∀ u ∈ univ, ∀ e ∈ g.outgoing_edges u, ∀ n,
      g.target e = some n → n ∈ univ)
    (hnd : ∀ u, ∀ e ∈ g.outgoing_edges u, (g.target e).isSome) :
    ∃ F, ∀ fuel, F ≤ fuel → ∃ edges conn,
      prims g start fuel = some edges ∧
      grow g [start] edges = some conn ∧
      (∀ v, v ∈ conn ↔ ReachE g start v) ∧ conn.Nodup ∧
      edges.length + 1 = conn.length := by
  refine ⟨primsPhi g univ
      ((g.outgoing_edges start).map fun e => (g.weight e, e)) [start] + 1,
    fun fuel hfuel => ?_⟩
  have hinv0 : PrimsInv g start
      ((g.outgoing_edges start).map fun e => (g.weight e, e)) [start] [] := by
    refine ⟨List.mem_singleton_self _, ?_, List.nodup_singleton _, ?_, ?_, rfl⟩
    · intro v hv
      rcases List.mem_singleton.mp hv with rfl
      exact ReachE.refl
    · intro ce h
      obtain ⟨e, he, rfl⟩ := List.mem_map.mp h
      exact ⟨rfl, start, List.mem_singleton_self _, he⟩
    · intro u hu e he n ht
      rcases List.mem_singleton.mp hu with rfl
      exact Or.inr (List.mem_map.mpr ⟨e, he, rfl⟩)
  obtain ⟨edges, conn, h1, h2, h3, h4, h5⟩ :=
    primsLoop_spanning hclosed fuel _ [start] [] hinv0
      (fun v hv => by rcases List.mem_singleton.mp hv with rfl; exact hstart)
      (by omega)
  exact ⟨edges, conn, h1, h2, h3, h4, h5⟩

/-- C7 witness: the spanning-tree statement instantiated on the
`minimum_spanning_tree.rs` test fixture (4 nodes, 4 undirected edges),
starting at node 1. -/
theorem c7_prims_spanning_tree_witness :
    ∃ F, ∀ fuel, F ≤ fuel → ∃ edges conn,
      prims gMst 1 fuel = some edges ∧
      grow gMst [1] edges = some conn ∧
      (∀ v, v ∈ conn ↔ ReachE gMst 1 v) ∧ conn.Nodup ∧
      edges.length + 1 = conn.length := by
  refine c7_prims_spanning_tree gMst 1 [1, 2, 3, 4] (by decide) ?_ ?_
  · intro u hu e he n ht
    fin_cases hu <;> fin_cases he <;> simp_all [gMst]
  · intro u e he
    rcases u with _ | _ | _ | _ | _ | u
    · simp [gMst] at he
    · fin_cases he <;> decide
    · fin_cases he <;> decide
    · fin_cases he <;> decide
    · fin_cases he <;> decide
    · simp [gMst] at he

/-- C8: on the shared fixture graph (nodes 1-6 with the nine undirected
weighted edges of the test), the shortest-path engine from 1 to 5 with the
zero heuristic returns the node sequence `[5, 6, 3, 1]`. -/
theorem c8_fixture_shortest_path :
    (fixture.map fun g => a_star g.toSPGraph 1 5 (fun _ _ => 0) 100) =
      some (.found [5, 6, 3, 1]) := by
  rfl

/-- C10: for every graph, node `s` and heuristic, `a_star(graph, s, s, h)`
returns the single-element path `[s]` immediately (one loop iteration, before
any outgoing edge of `s` is expanded — the result does not depend on the
graph's edges at all). -/
theorem c10_start_eq_goal {N : Type} [DecidableEq N] (g : SPGraph N) (s : N)
    (heuristic : N → N → Nat) (fuel : Nat) (hfuel : 1 ≤ fuel) :
    a_star g s s heuristic fuel = .found [s] := by
  obtain ⟨f, rfl⟩ : ∃ f, fuel = f + 1 :=
    ⟨fuel - 1, (Nat.succ_pred_eq_of_pos hfuel).symm⟩
  simp [a_star, aStarLoop, selectMinBy, reconstruct]

/-- C10 witness: the theorem applied to a concrete graph with an edge leaving
the start node. -/
theorem c10_start_eq_goal_witness :
    a_star gBreak 1 1 (fun _ _ => 0) 1 = .found [1] :=
  c10_start_eq_goal gBreak 1 (fun _ _ => 0) 1 (by decide)

/-- C3 (code bug): on `gBreak` a path from 1 to 3 of cost 1 exists, yet
`a_star` reports that no path exists: expanding node 1 hits the dangling edge
`1 → 2` first and `break`s out of the neighbour loop instead of skipping just
that edge, so the edge `1 → 3` is never relaxed and the frontier empties. -/
theorem c3_none_despite_path :
    a_star gBreak 1 3 (fun _ _ => 0) 50 = .noPath ∧ PathTo gBreak 1 3 1 := by
  refine ⟨by rfl, ?_⟩
  have hstep : PathTo gBreak 1 3 (0 + 1) :=
    PathTo.step PathTo.refl (by decide) rfl
  simpa using hstep

/-- C4 (code bug): while node 1 is being expanded, the dangling edge `1 → 2`
is iterated first; the `break` in the `None` arm of the weight match drops the
remaining neighbour 3 even though 3 passed the not-yet-closed filter and the
edge `1 → 3` exists, so no frontier entry at all is pushed. -/
theorem c4_break_drops_remaining_edges :
    expand gBreak (fun _ _ => 0) 3
        (insertD [] 1 { node := 1, parent := none, h_cost := 0, g_cost := 0 })
        { node := 1, parent := none, h_cost := 0, g_cost := 0 } = [] ∧
      3 ∈ (gBreak.neighbours 1).filter
        (fun n => (lookupD (insertD ([] : List (Nat × PathNode Nat)) 1
          { node := 1, parent := none, h_cost := 0, g_cost := 0 }) n).isNone) ∧
      gBreak.weight 1 3 = some 1 := by
  refine ⟨by rfl, by decide, by rfl⟩

/-- C5 (code bug in the committed trait declaration): the algorithms require
the `Option`-returning `target` of spec §4.1 — here `prims`, run on a graph
whose node 1 carries a dangling edge (edge 1, `target` absent) next to a
resolving edge (edge 2), skips the dangling edge and completes normally,
which is only expressible with the optional result that `src/lib.rs`'s
`fn target(&self, edge) -> Self::NodeId` fails to provide. -/
theorem c5_target_optional_in_callers :
    prims gDang 1 20 = some [2] ∧ gDang.target 1 = none ∧
      1 ∈ gDang.outgoing_edges 1 := by
  refine ⟨by rfl, by rfl, by decide⟩

/-- C6 (code bug): on the two-node cycle `1 → 2 → 1` the traversal enqueues
the start node a second time — `start` is never inserted into the visited
set, so the edge `2 → 1` re-enqueues it and the visit order is `1, 2, 1`,
contradicting single-visit. -/
theorem c6_start_visited_twice :
    (breadth_first_search gCyc 1 (fun _ => true) 20).map
      (List.map BfsNode.value) = some [1, 2, 1] := by
  rfl

/-- C9: `add_arc(from, to, weight)` fails (the `self.map[from]` index panics)
exactly when `from` is unknown; when `from` is mapped to a (valid) slot the
call succeeds, the arc map of `from` now sends `to` to `weight`, every other
arc of `from` is untouched, and the node-id map is unchanged. -/
theorem c9_add_arc_spec {V : Type} (m : AdjacencyMap V) (f t w : Nat)
    (hwf : ∀ k li, lookupD m.map k = some li → li < m.nodes.length) :
    (m.add_arc f t w = none ↔ lookupD m.map f = none) ∧
      (∀ li, lookupD m.map f = some li →
        ∃ m' nd, m.add_arc f t w = some m' ∧ m.nodes[li]? = some nd ∧
          m'.nodes[li]? = some { nd with outgoing := insertD nd.outgoing t w } ∧
          lookupD (insertD nd.outgoing t w) t = some w ∧
          (∀ t', t' ≠ t →
            lookupD (insertD nd.outgoing t w) t' = lookupD nd.outgoing t') ∧
          m'.map = m.map) := by
  constructor
  · cases hmap : lookupD m.map f with
    | none => simp [AdjacencyMap.add_arc, hmap]
    | some li =>
      have hlt : li < m.nodes.length := hwf f li hmap
      have hnd : m.nodes[li]?.isSome := by
        simp [List.getElem?_eq_getElem hlt]
      obtain ⟨nd, hnd⟩ := Option.isSome_iff_exists.mp hnd
      simp [AdjacencyMap.add_arc, hmap, hnd]
  · intro li hmap
    have hlt : li < m.nodes.length := hwf f li hmap
    have hnd : m.nodes[li]? = some m.nodes[li] := List.getElem?_eq_getElem hlt
    have hm' : m.add_arc f t w = some (AdjacencyMap.mk
        (m.nodes.set li (AdjacencyMapNode.mk m.nodes[li].value
          (insertD m.nodes[li].outgoing t w))) m.map) := by
      simp [AdjacencyMap.add_arc, hmap, hnd]
    refine ⟨_, m.nodes[li], hm', hnd, ?_, lookupD_insertD_self, ?_, rfl⟩
    · simp [List.getElem?_set_eq_of_lt _ hlt]
    · intro t' ht'
      exact lookupD_insertD_ne ht'

/-- C9 witness: a map holding node 1, where `add_arc 2 …` fails (unknown
source) and `add_arc 1 3 5` succeeds and records the arc. -/
theorem c9_add_arc_spec_witness :
    ((AdjacencyMap.new.add_node 1 ()).add_arc 2 3 5 = none) ∧
      ∃ m' nd, (AdjacencyMap.new.add_node 1 ()).add_arc 1 3 5 = some m' ∧
        (AdjacencyMap.new.add_node 1 ()).nodes[0]? = some nd ∧
        m'.nodes[0]? = some { nd with outgoing := insertD nd.outgoing 3 5 } ∧
        lookupD (insertD nd.outgoing 3 5) 3 = some 5 ∧
        (∀ t', t' ≠ 3 →
          lookupD (insertD nd.outgoing 3 5) t' = lookupD nd.outgoing t') ∧
        m'.map = (AdjacencyMap.new.add_node 1 ()).map := by
  have hwf : ∀ k li,
      lookupD ((AdjacencyMap.new.add_node 1 ()) : AdjacencyMap Unit).map k = some li →
      li < ((AdjacencyMap.new.add_node 1 ()) : AdjacencyMap Unit).nodes.length := by
    intro k li h
    by_cases hk : k = 1
    · subst hk
      simp [AdjacencyMap.new, AdjacencyMap.add_node, insertD, lookupD] at h
      simp [AdjacencyMap.new, AdjacencyMap.add_node, ← h]
    · simp [AdjacencyMap.new, AdjacencyMap.add_node, insertD, lookupD,
        Ne.symm hk] at h
  obtain ⟨h1, h2⟩ := c9_add_arc_spec (AdjacencyMap.new.add_node 1 ()) 1 3 5 hwf
  refine ⟨?_, ?_⟩
  · have h2' := c9_add_arc_spec (AdjacencyMap.new.add_node 1 ()) 2 3 5 hwf
    exact h2'.1.mpr (by decide)
  · exact h2 0 (by decide)

end GraphLib
